import Mathlib

/-!
Verification of the arbor discretization / linear-solve core.

Shallow embedding conventions:
* C++ `double` is modelled as an exact ordered field: `ℚ` for the
  piecewise container and the matrix solver (whose claims are exact
  arithmetic identities), `ℝ` for the geometric embedding (which uses
  square roots and π).
* C++ vectors are modelled as `List`s, or as functions `ℕ → ℚ` together
  with an explicit size, matching the flat-array style of the source.
* Code that throws is modelled in `Except String`; an out-of-range vector
  access is modelled in `Option`.
-/

namespace Arbor

/-! ## `arb::pw_elements<X>` (src/arbor/util/piecewise.hpp)

`vertex_` is the list of interval boundaries, `element_` the per-interval
values.  Consistency requirements from the source: either both are empty,
or `element_.size()+1 = vertex_.size()`, with `vertex_` non-decreasing. -/

structure PW (α : Type) (X : Type) where
  vertex : List α
  element : List X
deriving DecidableEq

variable {α : Type} {X : Type} [LinearOrder α]

/-- C++ `pw_elements::size()`: the number of elements. -/
def PW.size (w : PW α X) : ℕ := w.element.length

/-- C++ `pw_elements::empty()`. -/
def PW.isEmptyPW (w : PW α X) : Bool := w.element.isEmpty

/-- The consistency invariant stated in the source's comment (lines 22-28):
an empty container has both lists empty; a non-empty one has one more
vertex than elements, with the vertices non-decreasing. -/
def PW.ok (w : PW α X) : Prop :=
  (w.vertex = [] ∧ w.element = []) ∨
    (w.element ≠ [] ∧ w.vertex.length = w.element.length + 1 ∧
      w.vertex.Sorted (fun a b => a ≤ b))

/-- C++ `pw_elements::push_back(double left, double right, U&& elem)`.
Throwing `std::runtime_error` is modelled by `Except.error`; in the source
the two guard checks precede every modification of the container. -/
def PW.push_back (w : PW α X) (left right : α) (elem : X) :
    Except String (PW α X) :=
  if ¬ w.element.isEmpty ∧ w.vertex.getLast? ≠ some left then
    .error "noncontiguous element"
  else if right < left then
    .error "inverted element"
  else
    .ok ⟨(if w.vertex.isEmpty then [left] else w.vertex) ++ [right],
         w.element ++ [elem]⟩

omit [LinearOrder α] in
/-- Helper: `getLast? = some b` puts `b` in the list. -/
theorem mem_of_getLast?_eq {l : List α} {b : α} (hb : l.getLast? = some b) :
    b ∈ l := by
  obtain ⟨h, rfl⟩ := List.mem_getLast?_eq_getLast (l := l) (x := b) hb
  exact List.getLast_mem h

/-- Helper: in a `≤`-sorted list every member is at most the last entry. -/
theorem sorted_le_last {l : List α} (hs : l.Sorted (fun a b => a ≤ b))
    {x b : α} (hx : x ∈ l) (hb : l.getLast? = some b) : x ≤ b := by
  induction l with
  | nil => cases hx
  | cons a t ih =>
    cases t with
    | nil =>
      simp only [List.getLast?_singleton, Option.some.injEq] at hb
      rcases List.mem_singleton.mp hx with rfl
      exact le_of_eq hb
    | cons c u =>
      have hb' : (c :: u).getLast? = some b := by
        rwa [List.getLast?_cons_cons] at hb
      rcases List.mem_cons.mp hx with rfl | hxt
      · exact (List.sorted_cons.mp hs).1 b (mem_of_getLast?_eq hb')
      · exact ih (List.sorted_cons.mp hs).2 hxt hb'

/-- C10: `pw_elements::push_back(left, right, elem)` fails exactly when the
container is non-empty and `left` differs from the last vertex, or when
`right < left`; the checks precede any modification (modelled by `Except`),
and on success it appends exactly one element, preserving the invariant
that the vertex list is non-decreasing with one more entry than the
element list (or both empty). -/
theorem push_back_spec (w : PW α X) (l r : α) (e : X) (hw : w.ok) :
    ((∃ msg, w.push_back l r e = .error msg) ↔
      (w.element ≠ [] ∧ w.vertex.getLast? ≠ some l) ∨ r < l) ∧
    ((w.element = [] ∨ w.vertex.getLast? = some l) → l ≤ r →
      w.push_back l r e =
        .ok ⟨(if w.vertex.isEmpty then [l] else w.vertex) ++ [r],
             w.element ++ [e]⟩ ∧
      ∀ w' : PW α X, w.push_back l r e = .ok w' →
        w'.ok ∧ w'.element = w.element ++ [e]) := by
  constructor
  · unfold PW.push_back
    by_cases h1 : ¬ w.element.isEmpty ∧ w.vertex.getLast? ≠ some l
    · simp only [if_pos h1]
      constructor
      · intro _
        exact Or.inl ⟨by simpa using h1.1, h1.2⟩
      · intro _; exact ⟨_, rfl⟩
    · simp only [if_neg h1]
      by_cases h2 : r < l
      · simp only [if_pos h2]
        exact ⟨fun _ => Or.inr h2, fun _ => ⟨_, rfl⟩⟩
      · simp only [if_neg h2]
        constructor
        · rintro ⟨msg, hmsg⟩; cases hmsg
        · rintro (⟨he, hv⟩ | hr)
          · exact absurd ⟨by simpa using he, hv⟩ h1
          · exact absurd hr h2
  · intro hpre hlr
    have hnothrow : w.push_back l r e =
        .ok ⟨(if w.vertex.isEmpty then [l] else w.vertex) ++ [r],
             w.element ++ [e]⟩ := by
      unfold PW.push_back
      have h1 : ¬ (¬ w.element.isEmpty ∧ w.vertex.getLast? ≠ some l) := by
        rcases hpre with he | hv
        · intro h; exact h.1 (by simp [he])
        · intro h; exact h.2 hv
      rw [if_neg h1, if_neg (not_lt.mpr hlr)]
    refine ⟨hnothrow, ?_⟩
    intro w' hw'
    rw [hnothrow] at hw'
    injection hw' with hw'
    subst hw'
    refine ⟨?_, rfl⟩
    rcases hw with ⟨hv, he⟩ | ⟨hene, hlen, hsorted⟩
    · right
      refine ⟨by simp, ?_, ?_⟩
      · simp [hv, he]
      · simp only [hv, List.isEmpty_nil, if_true]
        simp [List.Sorted, hlr]
    · right
      have hvne : w.vertex ≠ [] := by
        intro h; rw [h] at hlen; simp at hlen
      have hlast : w.vertex.getLast? = some l := hpre.resolve_left hene
      refine ⟨by simp, ?_, ?_⟩
      · simp only [List.isEmpty_eq_true]
        rw [if_neg hvne]
        simp [hlen]
      · simp only [List.isEmpty_eq_true]
        rw [if_neg hvne]
        refine List.pairwise_append.mpr ⟨hsorted, by simp [List.Sorted], ?_⟩
        intro a ha b hb
        rcases List.mem_singleton.mp hb with rfl
        exact le_trans (sorted_le_last hsorted ha hlast) hlr

/-- Witness for C10 at a concrete input. -/
theorem push_back_spec_witness :
    (PW.ok (⟨[(0 : ℚ), 1], [(5 : ℤ)]⟩ : PW ℚ ℤ)) ∧
    (((⟨[(0 : ℚ), 1], [(5 : ℤ)]⟩ : PW ℚ ℤ).push_back 1 2 7 =
        .ok ⟨[0, 1, 2], [5, 7]⟩) ∧
     (∃ msg, (⟨[(0 : ℚ), 1], [(5 : ℤ)]⟩ : PW ℚ ℤ).push_back 3 4 7 =
        .error msg)) := by
  have h1 := push_back_spec (⟨[(0 : ℚ), 1], [(5 : ℤ)]⟩ : PW ℚ ℤ) 1 2 7 (by
    right; exact ⟨by decide, by decide, by decide⟩)
  have h2 := push_back_spec (⟨[(0 : ℚ), 1], [(5 : ℤ)]⟩ : PW ℚ ℤ) 3 4 7 (by
    right; exact ⟨by decide, by decide, by decide⟩)
  refine ⟨Or.inr ⟨by decide, by decide, by decide⟩, ?_, ?_⟩
  · have := (h1.2 (Or.inr (by decide)) (by decide)).1
    simpa using this
  · exact h2.1.mpr (Or.inl ⟨by decide, by decide⟩)

/-! ## Index-range helper

`icoList a b` is the index sequence `a, a+1, ..., b-1` of a C++ loop
`for (i = a; i < b; ++i)` (`util::make_span(a, b)` in the source). -/

def icoList (a b : ℕ) : List ℕ := (List.range (b - a)).map (a + ·)

theorem icoList_eq_nil {a b : ℕ} (h : b ≤ a) : icoList a b = [] := by
  unfold icoList
  rw [Nat.sub_eq_zero_of_le h]
  rfl

theorem icoList_cons {a b : ℕ} (h : a < b) :
    icoList a b = a :: icoList (a + 1) b := by
  unfold icoList
  rw [show b - a = (b - (a + 1)) + 1 by omega, List.range_succ_eq_map]
  simp only [List.map_cons, Nat.add_zero, List.map_map]
  congr 1
  apply List.map_congr_left
  intro i _
  simp only [Function.comp_apply]
  omega

theorem icoList_concat {a b : ℕ} (h : a ≤ b) :
    icoList a (b + 1) = icoList a b ++ [b] := by
  unfold icoList
  rw [show b + 1 - a = (b - a) + 1 by omega, List.range_succ, List.map_append]
  simp only [List.map_cons, List.map_nil]
  rw [show a + (b - a) = b by omega]

theorem mem_icoList {a b i : ℕ} : i ∈ icoList a b ↔ a ≤ i ∧ i < b := by
  unfold icoList
  simp only [List.mem_map, List.mem_range]
  constructor
  · rintro ⟨j, hj, rfl⟩; omega
  · rintro ⟨h1, h2⟩; exact ⟨i - a, by omega, by omega⟩

theorem icoList_sum_eq_finset_sum (f : ℕ → ℚ) (a b : ℕ) :
    ((icoList a b).map f).sum = ∑ i in Finset.Ico a b, f i := by
  induction b with
  | zero => simp [icoList_eq_nil (Nat.zero_le a)]
  | succ b ih =>
    by_cases h : a ≤ b
    · rw [icoList_concat h, List.map_append, List.sum_append,
        Finset.sum_Ico_succ_top h, ih]
      simp
    · rw [icoList_eq_nil (by omega), Finset.Ico_eq_empty (by omega)]
      simp

/-! ## `arb::multicore::matrix_state<T, I>` (the Hines matrix back end)

Arrays are modelled as functions `ℕ → ℚ` with explicit sizes `n`
(CV count) and `ncells`; `cell_cv_divs` is the partition of `[0, n)`
into per-cell CV ranges. -/

structure MatrixState where
  n : ℕ
  ncells : ℕ
  parent_index : ℕ → ℕ
  cell_cv_divs : ℕ → ℕ
  d : ℕ → ℚ
  u : ℕ → ℚ
  rhs : ℕ → ℚ
  cv_capacitance : ℕ → ℚ
  cv_elastance : ℕ → ℚ
  face_conductance : ℕ → ℚ
  cv_area : ℕ → ℚ
  cell_to_intdom : ℕ → ℕ
  invariant_d : ℕ → ℚ

/-- One iteration of the constructor's `invariant_d` accumulation loop:
`invariant_d[i] += gij; invariant_d[p[i]] += gij` with
`gij = face_conductance[i]`. -/
def invdStep (fc : ℕ → ℚ) (p : ℕ → ℕ) (a : ℕ → ℚ) (i : ℕ) : ℕ → ℚ :=
  let a1 := Function.update a i (a i + fc i)
  Function.update a1 (p i) (a1 (p i) + fc i)

/-- The constructor's loop over `i ∈ [1, n)` building `invariant_d`
from the zero array. -/
def invdLoop (fc : ℕ → ℚ) (p : ℕ → ℕ) (n : ℕ) : ℕ → ℚ :=
  (icoList 1 n).foldl (invdStep fc p) (fun _ => 0)

/-- The divisors used by the constructor: `cv_elastance[i] = 1e3/cv_capacitance[i]`
for each `i ∈ [0, n)` divides by `cv_capacitance[i]`. -/
def mkDivisors (cap : ℕ → ℚ) (n : ℕ) : List ℚ :=
  (icoList 0 n).map cap

/-- The `matrix_state` constructor (part_008 lines 100-132): stores the
inputs, sets `u[i] = -face_conductance[i]` and accumulates `invariant_d`
over `i ∈ [1, n)`, and computes `cv_elastance[i] = 1e3/cv_capacitance[i]`.
`d` is zero-initialized and `rhs` value-initialized (zero). -/
def mkMatrixState (p divs : ℕ → ℕ) (cap cond area : ℕ → ℚ)
    (ctid : ℕ → ℕ) (n ncells : ℕ) : MatrixState where
  n := n
  ncells := ncells
  parent_index := p
  cell_cv_divs := divs
  d := fun _ => 0
  u := fun i => if 1 ≤ i ∧ i < n then -cond i else 0
  rhs := fun _ => 0
  cv_capacitance := cap
  cv_elastance := fun i => if i < n then 1000 / cap i else 0
  face_conductance := cond
  cv_area := area
  cell_to_intdom := ctid
  invariant_d := invdLoop cond p n

/-- Body of the `dt > 0` inner loop of `assemble_implicit` for one CV `i`. -/
def assembleInner (s : MatrixState) (oodt_factor : ℚ)
    (voltage current conductivity : ℕ → ℚ)
    (dr : (ℕ → ℚ) × (ℕ → ℚ)) (i : ℕ) : (ℕ → ℚ) × (ℕ → ℚ) :=
  let area_factor := (1 / 1000 : ℚ) * s.cv_area i
  let gi := oodt_factor * s.cv_capacitance i + area_factor * conductivity i
  (Function.update dr.1 i (gi + s.invariant_d i),
   Function.update dr.2 i (gi * voltage i - area_factor * current i))

/-- One cell's (submatrix's) pass of `assemble_implicit`. -/
def assembleCell (s : MatrixState) (dt_coeff : ℚ)
    (dt_intdom voltage current conductivity : ℕ → ℚ)
    (dr : (ℕ → ℚ) × (ℕ → ℚ)) (m : ℕ) : (ℕ → ℚ) × (ℕ → ℚ) :=
  let dt := dt_intdom (s.cell_to_intdom m)
  if 0 < dt then
    let oodt_factor := (1 / 1000 : ℚ) / (dt_coeff * dt)
    (icoList (s.cell_cv_divs m) (s.cell_cv_divs (m + 1))).foldl
      (assembleInner s oodt_factor voltage current conductivity) dr
  else
    (icoList (s.cell_cv_divs m) (s.cell_cv_divs (m + 1))).foldl
      (fun dr i => (Function.update dr.1 i 0,
                    Function.update dr.2 i (voltage i))) dr

/-- `matrix_state::assemble_implicit` (part_008 lines 148-175). -/
def MatrixState.assemble_implicit (s : MatrixState) (dt_coeff : ℚ)
    (dt_intdom voltage current conductivity : ℕ → ℚ) : MatrixState :=
  let dr := (icoList 0 s.ncells).foldl
    (assembleCell s dt_coeff dt_intdom voltage current conductivity)
    (s.d, s.rhs)
  { s with d := dr.1, rhs := dr.2 }

/-- One iteration of the backward (elimination) sweep of `solve`:
`factor = u[i]/d[i]; d[p[i]] -= factor*u[i]; rhs[p[i]] -= factor*rhs[i]`. -/
def bstep (p : ℕ → ℕ) (u : ℕ → ℚ) (dr : (ℕ → ℚ) × (ℕ → ℚ)) (i : ℕ) :
    (ℕ → ℚ) × (ℕ → ℚ) :=
  let factor := u i / dr.1 i
  (Function.update dr.1 (p i) (dr.1 (p i) - factor * u i),
   Function.update dr.2 (p i) (dr.2 (p i) - factor * dr.2 i))

/-- One iteration of the forward (substitution) sweep of `solve`:
`rhs[i] -= u[i]*rhs[p[i]]; rhs[i] /= d[i]`. -/
def fstep (p : ℕ → ℕ) (u : ℕ → ℚ) (dr : (ℕ → ℚ) × (ℕ → ℚ)) (i : ℕ) :
    (ℕ → ℚ) × (ℕ → ℚ) :=
  (dr.1, Function.update dr.2 i ((dr.2 i - u i * dr.2 (p i)) / dr.1 i))

/-- `matrix_state::solve` for one cell's CV range `[first, last)`
(part_008 lines 177-199): skipped entirely when `d[first] == 0`, else
backward sweep from `last-1` down to `first+1`, division of `rhs[first]`
by the updated `d[first]`, then forward sweep from `first+1` to `last-1`. -/
def solveCell (p : ℕ → ℕ) (u : ℕ → ℚ) (first last : ℕ)
    (dr : (ℕ → ℚ) × (ℕ → ℚ)) : (ℕ → ℚ) × (ℕ → ℚ) :=
  if dr.1 first = 0 then dr
  else
    let bs := ((icoList (first + 1) last).reverse).foldl (bstep p u) dr
    let bs2 := (bs.1, Function.update bs.2 first (bs.2 first / bs.1 first))
    (icoList (first + 1) last).foldl (fstep p u) bs2

/-- `matrix_state::solve` (part_008 lines 177-199): the per-cell solve
over every cell range of `cell_cv_divs`. -/
def MatrixState.solve (s : MatrixState) : MatrixState :=
  let dr := (icoList 0 s.ncells).foldl
    (fun dr m => solveCell s.parent_index s.u
      (s.cell_cv_divs m) (s.cell_cv_divs (m + 1)) dr)
    (s.d, s.rhs)
  { s with d := dr.1, rhs := dr.2 }

/-- Body of the `dt_factor > 0` per-CV loop of `step_explicit`. -/
def stepCellStep (s : MatrixState) (voltage : ℕ → ℚ) (dt_factor : ℚ)
    (r : ℕ → ℚ) (i : ℕ) : ℕ → ℚ :=
  let pi' := s.parent_index i
  let r2 :=
    if pi' < i then
      let r1 := Function.update r pi' (r pi' - s.u i * voltage i)
      Function.update r1 i (r1 i - s.u i * voltage pi')
    else r
  Function.update r2 i
    (voltage i - dt_factor * s.cv_elastance i * (r2 i + s.invariant_d i * voltage i))

/-- `matrix_state::step_explicit` (part_008 lines 216-245). -/
def MatrixState.step_explicit (s : MatrixState) (dt_coeff : ℚ)
    (dt_intdom voltage current_density : ℕ → ℚ) : MatrixState :=
  let r0 : ℕ → ℚ := fun i =>
    if i < s.n then current_density i * (1 / 1000 : ℚ) * s.cv_area i else s.rhs i
  let r := (icoList 0 s.ncells).foldl
    (fun r m =>
      let dtf := dt_coeff * dt_intdom (s.cell_to_intdom m)
      if 0 < dtf then
        ((icoList (s.cell_cv_divs m) (s.cell_cv_divs (m + 1))).reverse).foldl
          (stepCellStep s voltage dtf) r
      else
        (icoList (s.cell_cv_divs m) (s.cell_cv_divs (m + 1))).foldl
          (fun r i => Function.update r i (voltage i)) r)
    r0
  { s with rhs := r }

/-! ## C3: constructor invariants -/

theorem invdStep_apply (fc : ℕ → ℚ) (p : ℕ → ℕ) (a : ℕ → ℚ) (i x : ℕ) :
    invdStep fc p a i x =
      a x + (if i = x then fc i else 0) + (if p i = x then fc i else 0) := by
  unfold invdStep
  simp only [Function.update_apply]
  by_cases hpx : p i = x
  · rw [if_pos hpx.symm, if_pos hpx]
    by_cases hix : i = x
    · rw [if_pos hix, if_pos (hpx.trans hix.symm), hix]
      try ring
    · rw [if_neg hix, if_neg (fun h : p i = i => hix (by rw [← h]; exact hpx)),
        hpx]
      ring
  · rw [if_neg (fun h : x = p i => hpx h.symm), if_neg hpx]
    by_cases hix : i = x
    · rw [if_pos hix, if_pos hix.symm, hix]
      try ring
    · rw [if_neg (fun h : x = i => hix h.symm), if_neg hix]
      ring

theorem foldl_invdStep (fc : ℕ → ℚ) (p : ℕ → ℕ) (l : List ℕ) (a : ℕ → ℚ) (x : ℕ) :
    (l.foldl (invdStep fc p) a) x
      = a x + (l.map (fun i =>
          (if i = x then fc i else 0) + (if p i = x then fc i else 0))).sum := by
  induction l generalizing a with
  | nil => simp
  | cons i t ih =>
    rw [List.foldl_cons, ih, List.map_cons, List.sum_cons, invdStep_apply]
    ring

theorem invdLoop_closed (fc : ℕ → ℚ) (p : ℕ → ℕ) (n x : ℕ) :
    invdLoop fc p n x =
      (if 1 ≤ x ∧ x < n then fc x else 0) +
        ∑ j in (Finset.Ico 1 n).filter (fun j => p j = x), fc j := by
  unfold invdLoop
  rw [foldl_invdStep, icoList_sum_eq_finset_sum, Finset.sum_add_distrib]
  have hS1 : (∑ j in Finset.Ico 1 n, if j = x then fc j else 0)
      = (if 1 ≤ x ∧ x < n then fc x else 0) := by
    rw [Finset.sum_ite_eq' (Finset.Ico 1 n) x fc]
    simp [Finset.mem_Ico]
  have hS2 : (∑ j in Finset.Ico 1 n, if p j = x then fc j else 0)
      = ∑ j in (Finset.Ico 1 n).filter (fun j => p j = x), fc j :=
    (Finset.sum_filter _ _).symm
  rw [hS1, hS2]
  ring

/-- C3: given parent indices `p` and per-CV face conductances, zero at each
cell's first CV, the constructor establishes `u[i] = -face_conductance[i]`
for `i ≥ 1` and `invariant_d[i] = face_conductance[i] + Σ_{j ≥ 1, p j = i}
face_conductance[j]`; and no call to `assemble_implicit`, `solve` or
`step_explicit` modifies `invariant_d` or `u`. -/
theorem mk_invariants (p divs : ℕ → ℕ) (cap cond area : ℕ → ℚ)
    (ctid : ℕ → ℕ) (n ncells : ℕ) (hnc : 0 < ncells) (hd0 : divs 0 = 0)
    (hfc : ∀ m, m < ncells → cond (divs m) = 0) :
    (∀ i, 1 ≤ i → i < n →
      (mkMatrixState p divs cap cond area ctid n ncells).u i = -cond i) ∧
    (∀ i, i < n →
      (mkMatrixState p divs cap cond area ctid n ncells).invariant_d i =
        cond i + ∑ j in (Finset.Ico 1 n).filter (fun j => p j = i), cond j) ∧
    (∀ dtc dti v cur g,
      ((mkMatrixState p divs cap cond area ctid n ncells).assemble_implicit
          dtc dti v cur g).invariant_d =
        (mkMatrixState p divs cap cond area ctid n ncells).invariant_d ∧
      ((mkMatrixState p divs cap cond area ctid n ncells).assemble_implicit
          dtc dti v cur g).u =
        (mkMatrixState p divs cap cond area ctid n ncells).u) ∧
    ((mkMatrixState p divs cap cond area ctid n ncells).solve.invariant_d =
        (mkMatrixState p divs cap cond area ctid n ncells).invariant_d ∧
     (mkMatrixState p divs cap cond area ctid n ncells).solve.u =
        (mkMatrixState p divs cap cond area ctid n ncells).u) ∧
    (∀ dtc dti v cur,
      ((mkMatrixState p divs cap cond area ctid n ncells).step_explicit
          dtc dti v cur).invariant_d =
        (mkMatrixState p divs cap cond area ctid n ncells).invariant_d ∧
      ((mkMatrixState p divs cap cond area ctid n ncells).step_explicit
          dtc dti v cur).u =
        (mkMatrixState p divs cap cond area ctid n ncells).u) := by
  refine ⟨?_, ?_, ?_, ?_, ?_⟩
  · intro i h1 h2
    simp only [mkMatrixState]
    rw [if_pos ⟨h1, h2⟩]
  · intro i hi
    have h0 : cond 0 = 0 := by
      have := hfc 0 hnc
      rwa [hd0] at this
    simp only [mkMatrixState]
    rw [invdLoop_closed]
    by_cases h1 : 1 ≤ i
    · rw [if_pos ⟨h1, hi⟩]
    · have : i = 0 := by omega
      subst this
      rw [if_neg (by omega), h0]
  · intro dtc dti v cur g
    exact ⟨rfl, rfl⟩
  · exact ⟨rfl, rfl⟩
  · intro dtc dti v cur
    exact ⟨rfl, rfl⟩

/-- Witness for C3 at a concrete input: two CVs, one cell,
`p = [0, 0]`, `face_conductance = [0, 5]`. -/
theorem mk_invariants_witness :
    (0 : ℕ) < 1 ∧
    ((fun m => if m = 0 then 0 else 2) : ℕ → ℕ) 0 = 0 ∧
    (mkMatrixState (fun _ => 0) (fun m => if m = 0 then 0 else 2)
        (fun _ => 1) (fun i => if i = 1 then 5 else 0) (fun _ => 1)
        (fun _ => 0) 2 1).u 1 = -(5 : ℚ) ∧
    (mkMatrixState (fun _ => 0) (fun m => if m = 0 then 0 else 2)
        (fun _ => 1) (fun i => if i = 1 then 5 else 0) (fun _ => 1)
        (fun _ => 0) 2 1).invariant_d 0 =
      (0 : ℚ) + ∑ j in (Finset.Ico 1 2).filter
        (fun j => (fun _ => 0 : ℕ → ℕ) j = 0), (if j = 1 then (5 : ℚ) else 0) := by
  have h := mk_invariants (fun _ => 0) (fun m => if m = 0 then 0 else 2)
    (fun _ => 1) (fun i => if i = 1 then 5 else 0) (fun _ => 1) (fun _ => 0) 2 1
    (by decide) (by decide)
    (by intro m hm; interval_cases m; decide)
  refine ⟨by decide, by decide, ?_, ?_⟩
  · have := h.1 1 (by decide) (by decide)
    simpa using this
  · have := h.2.1 0 (by decide)
    simpa using this

/-! ## C6: zero-capacitance CV makes the constructor divide by zero -/

/-- C6 (code bug evidence): constructing a `matrix_state` with
`cv_area[0] = 0` and `cv_capacitance[0] = 0` performs a division by zero:
the constructor computes `cv_elastance[0] = 1e3/cv_capacitance[0]` with
divisor `cv_capacitance[0] = 0` (`0 ∈ mkDivisors`), contrary to the claim
that no division by zero is performed. -/
theorem mk_zero_capacitance_divides_by_zero :
    (0 : ℚ) ∈ mkDivisors (fun _ => 0) 1 ∧
    (mkMatrixState (fun _ => 0) (fun m => if m = 0 then 0 else 1)
      (fun _ => 0) (fun _ => 0) (fun _ => 0) (fun _ => 0) 1 1).cv_capacitance 0
        = 0 ∧
    (mkMatrixState (fun _ => 0) (fun m => if m = 0 then 0 else 1)
      (fun _ => 0) (fun _ => 0) (fun _ => 0) (fun _ => 0) 1 1).cv_area 0 = 0 ∧
    (mkMatrixState (fun _ => 0) (fun m => if m = 0 then 0 else 1)
      (fun _ => 0) (fun _ => 0) (fun _ => 0) (fun _ => 0) 1 1).cv_elastance 0
        = 1000 / (0 : ℚ) := by
  refine ⟨?_, rfl, rfl, rfl⟩
  unfold mkDivisors icoList
  simp

/-! ## C2: `assemble_implicit` per-CV formulas -/

/-- Folding a loop whose body overwrites exactly index `j` of both arrays
with values `F j`, `G j` that do not depend on the running state. -/
theorem foldl_pointwise (f : (ℕ → ℚ) × (ℕ → ℚ) → ℕ → (ℕ → ℚ) × (ℕ → ℚ))
    (F G : ℕ → ℚ)
    (hf : ∀ dr j, f dr j =
      (Function.update dr.1 j (F j), Function.update dr.2 j (G j))) :
    ∀ (l : List ℕ) (dr : (ℕ → ℚ) × (ℕ → ℚ)) (i : ℕ),
      ((l.foldl f dr).1 i, (l.foldl f dr).2 i) =
        if i ∈ l then (F i, G i) else (dr.1 i, dr.2 i) := by
  intro l
  induction l with
  | nil => intro dr i; simp
  | cons j t ih =>
    intro dr i
    rw [List.foldl_cons, ih]
    by_cases hit : i ∈ t
    · rw [if_pos hit, if_pos (List.mem_cons.mpr (Or.inr hit))]
    · rw [if_neg hit, hf]
      by_cases hij : i = j
      · subst hij
        simp

      · rw [if_neg (by simp [hij, hit])]
        simp [Function.update_noteq hij]

/-- Effect of one cell's pass of `assemble_implicit` on one index. -/
theorem assembleCell_apply (s : MatrixState) (dtc : ℚ)
    (dti v cur g : ℕ → ℚ) (dr : (ℕ → ℚ) × (ℕ → ℚ)) (m i : ℕ) :
    ((assembleCell s dtc dti v cur g dr m).1 i,
     (assembleCell s dtc dti v cur g dr m).2 i) =
      if s.cell_cv_divs m ≤ i ∧ i < s.cell_cv_divs (m + 1) then
        (if 0 < dti (s.cell_to_intdom m) then
          (1 / 1000 / (dtc * dti (s.cell_to_intdom m)) * s.cv_capacitance i
             + 1 / 1000 * s.cv_area i * g i + s.invariant_d i,
           (1 / 1000 / (dtc * dti (s.cell_to_intdom m)) * s.cv_capacitance i
             + 1 / 1000 * s.cv_area i * g i) * v i
             - 1 / 1000 * s.cv_area i * cur i)
        else (0, v i))
      else (dr.1 i, dr.2 i) := by
  unfold assembleCell
  by_cases hdt : 0 < dti (s.cell_to_intdom m)
  · rw [if_pos hdt]
    rw [foldl_pointwise (assembleInner s (1 / 1000 / (dtc * dti (s.cell_to_intdom m))) v cur g)
      (fun i => 1 / 1000 / (dtc * dti (s.cell_to_intdom m)) * s.cv_capacitance i
        + 1 / 1000 * s.cv_area i * g i + s.invariant_d i)
      (fun i => (1 / 1000 / (dtc * dti (s.cell_to_intdom m)) * s.cv_capacitance i
        + 1 / 1000 * s.cv_area i * g i) * v i - 1 / 1000 * s.cv_area i * cur i)
      (fun dr j => rfl)]
    by_cases hin : s.cell_cv_divs m ≤ i ∧ i < s.cell_cv_divs (m + 1)
    · rw [if_pos (mem_icoList.mpr hin), if_pos hin, if_pos hdt]
    · rw [if_neg (fun h => hin (mem_icoList.mp h)), if_neg hin]
  · rw [if_neg hdt]
    rw [foldl_pointwise _ (fun _ => 0) (fun i => v i) (fun dr j => rfl)]
    by_cases hin : s.cell_cv_divs m ≤ i ∧ i < s.cell_cv_divs (m + 1)
    · rw [if_pos (mem_icoList.mpr hin), if_pos hin, if_neg hdt]
    · rw [if_neg (fun h => hin (mem_icoList.mp h)), if_neg hin]

/-- Processing cells none of which contains index `i` leaves `i` alone. -/
theorem foldl_assembleCell_frame (s : MatrixState) (dtc : ℚ)
    (dti v cur g : ℕ → ℚ) (ms : List ℕ) (dr : (ℕ → ℚ) × (ℕ → ℚ)) (i : ℕ)
    (h : ∀ m' ∈ ms, ¬(s.cell_cv_divs m' ≤ i ∧ i < s.cell_cv_divs (m' + 1))) :
    ((ms.foldl (assembleCell s dtc dti v cur g) dr).1 i,
     (ms.foldl (assembleCell s dtc dti v cur g) dr).2 i) = (dr.1 i, dr.2 i) := by
  induction ms generalizing dr with
  | nil => rfl
  | cons m' t ih =>
    rw [List.foldl_cons, ih _ (fun x hx => h x (List.mem_cons.mpr (Or.inr hx)))]
    have := assembleCell_apply s dtc dti v cur g dr m' i
    rw [if_neg (h m' (List.mem_cons.mpr (Or.inl rfl)))] at this
    exact this

/-- Processing a list of cells among which exactly `m` contains index `i`
gives `i` the value cell `m` assigns. -/
theorem foldl_assembleCell_eval (s : MatrixState) (dtc : ℚ)
    (dti v cur g : ℕ → ℚ) (ms : List ℕ) (dr : (ℕ → ℚ) × (ℕ → ℚ)) (m i : ℕ)
    (hmem : m ∈ ms)
    (hout : ∀ m' ∈ ms, m' ≠ m →
      ¬(s.cell_cv_divs m' ≤ i ∧ i < s.cell_cv_divs (m' + 1)))
    (hin : s.cell_cv_divs m ≤ i ∧ i < s.cell_cv_divs (m + 1)) :
    ((ms.foldl (assembleCell s dtc dti v cur g) dr).1 i,
     (ms.foldl (assembleCell s dtc dti v cur g) dr).2 i) =
      if 0 < dti (s.cell_to_intdom m) then
        (1 / 1000 / (dtc * dti (s.cell_to_intdom m)) * s.cv_capacitance i
           + 1 / 1000 * s.cv_area i * g i + s.invariant_d i,
         (1 / 1000 / (dtc * dti (s.cell_to_intdom m)) * s.cv_capacitance i
           + 1 / 1000 * s.cv_area i * g i) * v i
           - 1 / 1000 * s.cv_area i * cur i)
      else (0, v i) := by
  induction ms generalizing dr with
  | nil => cases hmem
  | cons m' t ih =>
    rw [List.foldl_cons]
    by_cases hmt : m ∈ t
    · exact ih _ hmt (fun x hx => hout x (List.mem_cons.mpr (Or.inr hx)))
    · have hm' : m' = m := by
        rcases List.mem_cons.mp hmem with h | h
        · exact h.symm
        · exact absurd h hmt
      subst hm'
      have hframe := foldl_assembleCell_frame s dtc dti v cur g t
        (assembleCell s dtc dti v cur g dr m') i
        (fun x hx => hout x (List.mem_cons.mpr (Or.inr hx))
          (fun he => hmt (he ▸ hx)))
      rw [hframe]
      have := assembleCell_apply s dtc dti v cur g dr m' i
      rwa [if_pos hin] at this

/-- C2: for a CV `i` of cell `m` whose integration-domain step is positive,
`assemble_implicit` sets
`d[i] = (1e-3/(dt_coeff*dt))*cv_capacitance[i] + 1e-3*cv_area[i]*conductivity[i] + invariant_d[i]`
and
`rhs[i] = ((1e-3/(dt_coeff*dt))*cv_capacitance[i] + 1e-3*cv_area[i]*conductivity[i])*voltage[i] - 1e-3*cv_area[i]*current[i]`;
for a CV of a cell with `dt ≤ 0` it sets `d[i] = 0`, `rhs[i] = voltage[i]`. -/
theorem assemble_implicit_spec (s : MatrixState) (dt_coeff : ℚ)
    (dti v cur g : ℕ → ℚ) (m i : ℕ) (hm : m < s.ncells)
    (hmono : ∀ a b, a ≤ b → b ≤ s.ncells → s.cell_cv_divs a ≤ s.cell_cv_divs b)
    (hlo : s.cell_cv_divs m ≤ i) (hhi : i < s.cell_cv_divs (m + 1)) :
    (0 < dti (s.cell_to_intdom m) →
      (s.assemble_implicit dt_coeff dti v cur g).d i
        = 1 / 1000 / (dt_coeff * dti (s.cell_to_intdom m)) * s.cv_capacitance i
            + 1 / 1000 * s.cv_area i * g i + s.invariant_d i ∧
      (s.assemble_implicit dt_coeff dti v cur g).rhs i
        = (1 / 1000 / (dt_coeff * dti (s.cell_to_intdom m)) * s.cv_capacitance i
            + 1 / 1000 * s.cv_area i * g i) * v i
            - 1 / 1000 * s.cv_area i * cur i) ∧
    (dti (s.cell_to_intdom m) ≤ 0 →
      (s.assemble_implicit dt_coeff dti v cur g).d i = 0 ∧
      (s.assemble_implicit dt_coeff dti v cur g).rhs i = v i) := by
  have hkey := foldl_assembleCell_eval s dt_coeff dti v cur g
    (icoList 0 s.ncells) (s.d, s.rhs) m i
    (mem_icoList.mpr ⟨Nat.zero_le m, hm⟩)
    (by
      intro m' hm' hne
      rcases Nat.lt_or_ge m' m with hlt | hge
      · intro hc
        have : s.cell_cv_divs (m' + 1) ≤ s.cell_cv_divs m :=
          hmono (m' + 1) m (by omega) (by omega)
        omega
      · have hgt : m < m' := lt_of_le_of_ne hge (fun h => hne h.symm)
        intro hc
        have : s.cell_cv_divs (m + 1) ≤ s.cell_cv_divs m' :=
          hmono (m + 1) m' (by omega) (by
            have := (mem_icoList.mp hm').2
            omega)
        omega)
    ⟨hlo, hhi⟩
  constructor
  · intro hdt
    rw [if_pos hdt] at hkey
    exact ⟨congrArg Prod.fst hkey, congrArg Prod.snd hkey⟩
  · intro hdt
    rw [if_neg (not_lt.mpr hdt)] at hkey
    exact ⟨congrArg Prod.fst hkey, congrArg Prod.snd hkey⟩

/-- Concrete one-CV, one-cell state used by witnesses. -/
def witState2 : MatrixState :=
  mkMatrixState (fun _ => 0) (fun m => if m = 0 then 0 else 1)
    (fun _ => 3) (fun _ => 0) (fun _ => 7) (fun _ => 0) 1 1

/-- Witness for C2 at a concrete input. -/
theorem assemble_implicit_spec_witness :
    (0 : ℕ) < witState2.ncells ∧
    (witState2.assemble_implicit 1 (fun _ => 1) (fun _ => 2) (fun _ => 1)
        (fun _ => 4)).d 0 = 31 / 1000 ∧
    (witState2.assemble_implicit 1 (fun _ => 1) (fun _ => 2) (fun _ => 1)
        (fun _ => 4)).rhs 0 = 11 / 200 := by
  have h := assemble_implicit_spec witState2 1 (fun _ => 1) (fun _ => 2)
    (fun _ => 1) (fun _ => 4) 0 0 (by norm_num [witState2, mkMatrixState])
    (by
      intro a b h1 h2
      simp only [witState2, mkMatrixState] at h2 ⊢
      interval_cases b <;> interval_cases a <;> norm_num)
    (by norm_num [witState2, mkMatrixState])
    (by norm_num [witState2, mkMatrixState])
  have h1 := h.1 (by norm_num [witState2, mkMatrixState])
  refine ⟨by norm_num [witState2, mkMatrixState], ?_, ?_⟩
  · rw [h1.1]
    norm_num [witState2, mkMatrixState, invdLoop, icoList]
  · rw [h1.2]
    norm_num [witState2, mkMatrixState, invdLoop, icoList]

/-! ## C8: `solve` skips frozen cells and stays inside the cell range -/

theorem foldl_bstep_frame (p : ℕ → ℕ) (u : ℕ → ℚ) (first last : ℕ)
    (l : List ℕ) (hl : ∀ i ∈ l, first ≤ p i ∧ p i < last)
    (dr : (ℕ → ℚ) × (ℕ → ℚ)) (j : ℕ) (hj : j < first ∨ last ≤ j) :
    ((l.foldl (bstep p u) dr).1 j = dr.1 j ∧
     (l.foldl (bstep p u) dr).2 j = dr.2 j) := by
  induction l generalizing dr with
  | nil => exact ⟨rfl, rfl⟩
  | cons i t ih =>
    rw [List.foldl_cons]
    have hpi := hl i (List.mem_cons.mpr (Or.inl rfl))
    have hne : p i ≠ j := by omega
    have := ih (fun x hx => hl x (List.mem_cons.mpr (Or.inr hx))) (bstep p u dr i)
    refine ⟨?_, ?_⟩
    · rw [this.1]
      exact Function.update_noteq (fun h => hne h.symm) _ _
    · rw [this.2]
      exact Function.update_noteq (fun h => hne h.symm) _ _

theorem foldl_fstep_frame (p : ℕ → ℕ) (u : ℕ → ℚ) (first last : ℕ)
    (l : List ℕ) (hl : ∀ i ∈ l, first ≤ i ∧ i < last)
    (dr : (ℕ → ℚ) × (ℕ → ℚ)) (j : ℕ) (hj : j < first ∨ last ≤ j) :
    ((l.foldl (fstep p u) dr).1 j = dr.1 j ∧
     (l.foldl (fstep p u) dr).2 j = dr.2 j) := by
  induction l generalizing dr with
  | nil => exact ⟨rfl, rfl⟩
  | cons i t ih =>
    rw [List.foldl_cons]
    have hi := hl i (List.mem_cons.mpr (Or.inl rfl))
    have hne : i ≠ j := by omega
    have := ih (fun x hx => hl x (List.mem_cons.mpr (Or.inr hx))) (fstep p u dr i)
    refine ⟨this.1, ?_⟩
    · rw [this.2]
      exact Function.update_noteq (fun h => hne h.symm) _ _

/-- C8 (amended): for a cell range `[first, last)` with `d[first] = 0`,
`solve` leaves `d` and `rhs` entirely unchanged (and never writes `u`); and
for a NONEMPTY cell range with parent indices inside the range, processing
it modifies no entry of `d` or `rhs` outside `[first, last)`. -/
theorem solveCell_frame (p : ℕ → ℕ) (u : ℕ → ℚ) (first last : ℕ)
    (d r : ℕ → ℚ) (hfl : first < last)
    (hp : ∀ i, first < i → i < last → first ≤ p i ∧ p i < last) :
    (d first = 0 → solveCell p u first last (d, r) = (d, r)) ∧
    (∀ j, j < first ∨ last ≤ j →
      (solveCell p u first last (d, r)).1 j = d j ∧
      (solveCell p u first last (d, r)).2 j = r j) := by
  constructor
  · intro h0
    unfold solveCell
    rw [if_pos h0]
  · intro j hj
    unfold solveCell
    by_cases h0 : d first = 0
    · rw [if_pos h0]; exact ⟨rfl, rfl⟩
    · rw [if_neg h0]
      have hmem : ∀ i ∈ (icoList (first + 1) last).reverse,
          first ≤ p i ∧ p i < last := by
        intro i hi
        have := mem_icoList.mp (List.mem_reverse.mp hi)
        exact hp i (by omega) this.2
      have hb := foldl_bstep_frame p u first last _ hmem (d, r) j hj
      have hmemf : ∀ i ∈ icoList (first + 1) last, first ≤ i ∧ i < last := by
        intro i hi
        have := mem_icoList.mp hi
        omega
      have hjf : j ≠ first := by omega
      set bs := ((icoList (first + 1) last).reverse).foldl (bstep p u) (d, r)
        with hbs
      have hf := foldl_fstep_frame p u first last _ hmemf
        (bs.1, Function.update bs.2 first (bs.2 first / bs.1 first)) j hj
      refine ⟨?_, ?_⟩
      · rw [hf.1]
        exact hb.1
      · rw [hf.2]
        show Function.update bs.2 first (bs.2 first / bs.1 first) j = r j
        rw [Function.update_noteq hjf]
        exact hb.2

/-- C8 counterexample: processing the EMPTY cell range `[0, 0)` with
`d[0] = 2 ≠ 0` divides `rhs[0]` by `d[0]`, modifying an entry outside the
(empty) range: the claim as stated fails for empty cell ranges. -/
theorem solveCell_empty_range_modifies :
    (solveCell (fun _ => 0) (fun _ => 0) 0 0
      ((fun _ => 2), (fun _ => 3))).2 0 = 3 / 2 ∧
    ((3 : ℚ) / 2 ≠ 3) ∧ ¬ ((0 : ℕ) ≤ 0 ∧ 0 < 0) := by
  refine ⟨?_, by norm_num, by omega⟩
  unfold solveCell
  rw [if_neg (by norm_num)]
  have hico : icoList 1 0 = [] := icoList_eq_nil (by omega)
  simp [hico]

/-- Witness for C8 at concrete inputs: a one-CV range, frozen-case identity
and an out-of-range index untouched. -/
theorem solveCell_frame_witness :
    (solveCell (fun _ => 0) (fun _ => 0) 0 1
      ((fun _ => 0), (fun _ => 3))) = ((fun _ => 0), (fun _ => 3)) ∧
    (solveCell (fun _ => 0) (fun _ => 0) 0 1
      ((fun _ => 2), (fun _ => 3))).2 5 = 3 := by
  have h1 := solveCell_frame (fun _ => 0) (fun _ => 0) 0 1
    (fun _ => 0) (fun _ => 3) (by omega) (by intro i h1 h2; omega)
  have h2 := solveCell_frame (fun _ => 0) (fun _ => 0) 0 1
    (fun _ => 2) (fun _ => 3) (by omega) (by intro i h1 h2; omega)
  exact ⟨h1.1 rfl, (h2.2 5 (by omega)).2⟩

/-! ## C1: `solve` computes the exact solution of the tree system

`Dfin`/`Rfin` are the values of `d`/`rhs` after the backward sweep (the
pivots actually divided by), `xsol` the value of `rhs` after the forward
sweep; they are characterized by recurrences over the children sets. -/

/-- The final (post-backward-sweep) diagonal:
`Dfin i = d0 i - Σ_{children j of i} u j ^ 2 / Dfin j`. -/
def Dfin (p : ℕ → ℕ) (u d0 : ℕ → ℚ) (first last i : ℕ) : ℚ :=
  d0 i - ∑ j in (Finset.Ico (first + 1) last).attach,
    if h : p j.1 = i ∧ i < j.1 then
      u j.1 ^ 2 / Dfin p u d0 first last j.1
    else 0
termination_by last - i
decreasing_by
  have hj := Finset.mem_Ico.mp j.2
  omega

/-- The final (post-backward-sweep) right-hand side:
`Rfin i = r0 i - Σ_{children j of i} u j * Rfin j / Dfin j`. -/
def Rfin (p : ℕ → ℕ) (u d0 r0 : ℕ → ℚ) (first last i : ℕ) : ℚ :=
  r0 i - ∑ j in (Finset.Ico (first + 1) last).attach,
    if h : p j.1 = i ∧ i < j.1 then
      u j.1 * Rfin p u d0 r0 first last j.1 / Dfin p u d0 first last j.1
    else 0
termination_by last - i
decreasing_by
  have hj := Finset.mem_Ico.mp j.2
  omega

/-- The final (post-forward-sweep) solution values. -/
def xsol (p : ℕ → ℕ) (u d0 r0 : ℕ → ℚ) (first last i : ℕ) : ℚ :=
  if h : p i < i ∧ first < i then
    (Rfin p u d0 r0 first last i
        - u i * xsol p u d0 r0 first last (p i))
      / Dfin p u d0 first last i
  else
    Rfin p u d0 r0 first last first / Dfin p u d0 first last first
termination_by i
decreasing_by
  exact h.1

theorem Dfin_eq (p : ℕ → ℕ) (u d0 : ℕ → ℚ) (first last i : ℕ) :
    Dfin p u d0 first last i =
      d0 i - ∑ j in (Finset.Ico (first + 1) last).filter
          (fun j => p j = i ∧ i < j),
        u j ^ 2 / Dfin p u d0 first last j := by
  rw [Dfin]
  congr 1
  rw [Finset.sum_filter]
  rw [← Finset.sum_attach ((Finset.Ico (first + 1) last))
    (fun j => if p j = i ∧ i < j then u j ^ 2 / Dfin p u d0 first last j else 0)]
  apply Finset.sum_congr rfl
  intro j _
  split_ifs with h
  · rfl
  · rfl

theorem Rfin_eq (p : ℕ → ℕ) (u d0 r0 : ℕ → ℚ) (first last i : ℕ) :
    Rfin p u d0 r0 first last i =
      r0 i - ∑ j in (Finset.Ico (first + 1) last).filter
          (fun j => p j = i ∧ i < j),
        u j * Rfin p u d0 r0 first last j / Dfin p u d0 first last j := by
  rw [Rfin]
  congr 1
  rw [Finset.sum_filter]
  rw [← Finset.sum_attach ((Finset.Ico (first + 1) last))
    (fun j => if p j = i ∧ i < j then
      u j * Rfin p u d0 r0 first last j / Dfin p u d0 first last j else 0)]
  apply Finset.sum_congr rfl
  intro j _
  split_ifs with h
  · rfl
  · rfl

theorem xsol_eq_root (p : ℕ → ℕ) (u d0 r0 : ℕ → ℚ) (first last : ℕ) :
    xsol p u d0 r0 first last first =
      Rfin p u d0 r0 first last first / Dfin p u d0 first last first := by
  rw [xsol]
  rw [dif_neg (by omega)]

theorem xsol_eq_inner (p : ℕ → ℕ) (u d0 r0 : ℕ → ℚ) (first last i : ℕ)
    (h1 : p i < i) (h2 : first < i) :
    xsol p u d0 r0 first last i =
      (Rfin p u d0 r0 first last i - u i * xsol p u d0 r0 first last (p i))
        / Dfin p u d0 first last i := by
  rw [xsol]
  rw [dif_pos ⟨h1, h2⟩]

/-- Splitting off the lowest index of a `ℕ`-interval. -/
theorem Ico_split_low {a b : ℕ} (h : a < b) :
    Finset.Ico a b = insert a (Finset.Ico (a + 1) b) := by
  apply Finset.ext
  intro j
  simp only [Finset.mem_insert, Finset.mem_Ico]
  omega

/-- Backward-sweep invariant: after eliminating indices `last-1, ..., k+1`,
every entry of `d` (resp. `rhs`) holds its initial value minus the
contributions of its already-eliminated children, whose own values were
final (`Dfin`, `Rfin`) when they were eliminated. -/
theorem bsweep_inv (p : ℕ → ℕ) (u d0 r0 : ℕ → ℚ) (first last : ℕ)
    (hp : ∀ i, first < i → i < last → first ≤ p i ∧ p i < i) :
    ∀ (n k : ℕ), last - k ≤ n → first ≤ k →
      (∀ x, (((icoList (k + 1) last).reverse).foldl (bstep p u) (d0, r0)).1 x
          = d0 x - ∑ j in (Finset.Ico (k + 1) last).filter
              (fun j => p j = x ∧ x < j),
            u j ^ 2 / Dfin p u d0 first last j) ∧
      (∀ x, (((icoList (k + 1) last).reverse).foldl (bstep p u) (d0, r0)).2 x
          = r0 x - ∑ j in (Finset.Ico (k + 1) last).filter
              (fun j => p j = x ∧ x < j),
            u j * Rfin p u d0 r0 first last j / Dfin p u d0 first last j) := by
  intro n
  induction n with
  | zero =>
    intro k hk _
    have he : icoList (k + 1) last = [] := icoList_eq_nil (by omega)
    have he2 : Finset.Ico (k + 1) last = ∅ := Finset.Ico_eq_empty (by omega)
    rw [he, he2]
    simp
  | succ n ih =>
    intro k hk hfk
    by_cases hkl : last ≤ k + 1
    · have he : icoList (k + 1) last = [] := icoList_eq_nil (by omega)
      have he2 : Finset.Ico (k + 1) last = ∅ := Finset.Ico_eq_empty (by omega)
      rw [he, he2]
      simp
    · push_neg at hkl
      have hrec : (icoList (k + 1) last).reverse
          = (icoList (k + 2) last).reverse ++ [k + 1] := by
        rw [icoList_cons (by omega)]
        simp
      have hIH := ih (k + 1) (by omega) (by omega)
      set S := ((icoList (k + 2) last).reverse).foldl (bstep p u) (d0, r0)
        with hS
      have hfold : (((icoList (k + 1) last).reverse).foldl (bstep p u) (d0, r0))
          = bstep p u S (k + 1) := by
        rw [hrec, List.foldl_append, List.foldl_cons, List.foldl_nil]
      have hm2 : k + 1 < last := hkl
      obtain ⟨hpm1, hpm2⟩ := hp (k + 1) (by omega) hm2
      have hsetDfin : (Finset.Ico (k + 2) last).filter
            (fun j => p j = k + 1 ∧ k + 1 < j)
          = (Finset.Ico (first + 1) last).filter
            (fun j => p j = k + 1 ∧ k + 1 < j) := by
        apply Finset.ext
        intro j
        simp only [Finset.mem_filter, Finset.mem_Ico]
        constructor
        · rintro ⟨⟨h1, h2⟩, h3, h4⟩; exact ⟨⟨by omega, h2⟩, h3, h4⟩
        · rintro ⟨⟨h1, h2⟩, h3, h4⟩; exact ⟨⟨by omega, h2⟩, h3, h4⟩
      have hSd : S.1 (k + 1) = Dfin p u d0 first last (k + 1) := by
        rw [hIH.1 (k + 1), Dfin_eq, hsetDfin]
      have hSr : S.2 (k + 1) = Rfin p u d0 r0 first last (k + 1) := by
        rw [hIH.2 (k + 1), Rfin_eq, hsetDfin]
      constructor
      · intro x
        rw [hfold]
        show (Function.update S.1 (p (k + 1))
          (S.1 (p (k + 1)) - u (k + 1) / S.1 (k + 1) * u (k + 1))) x = _
        rw [Ico_split_low (show k + 1 < last by omega), Finset.filter_insert]
        by_cases hx : x = p (k + 1)
        · rw [hx, Function.update_same, hIH.1 (p (k + 1)), hSd]
          rw [if_pos ⟨rfl, by omega⟩]
          rw [Finset.sum_insert (by
            intro hmem
            have := Finset.mem_Ico.mp (Finset.mem_filter.mp hmem).1
            omega)]
          have hpow : u (k + 1) / Dfin p u d0 first last (k + 1) * u (k + 1)
              = u (k + 1) ^ 2 / Dfin p u d0 first last (k + 1) := by
            ring
          rw [hpow]
          ring
        · rw [Function.update_noteq hx, hIH.1 x]
          rw [if_neg (by
            rintro ⟨h1, _⟩
            exact hx h1.symm)]
      · intro x
        rw [hfold]
        show (Function.update S.2 (p (k + 1))
          (S.2 (p (k + 1)) - u (k + 1) / S.1 (k + 1) * S.2 (k + 1))) x = _
        rw [Ico_split_low (show k + 1 < last by omega), Finset.filter_insert]
        by_cases hx : x = p (k + 1)
        · rw [hx, Function.update_same, hIH.2 (p (k + 1)), hSd, hSr]
          rw [if_pos ⟨rfl, by omega⟩]
          rw [Finset.sum_insert (by
            intro hmem
            have := Finset.mem_Ico.mp (Finset.mem_filter.mp hmem).1
            omega)]
          have hmulr : u (k + 1) / Dfin p u d0 first last (k + 1)
                * Rfin p u d0 r0 first last (k + 1)
              = u (k + 1) * Rfin p u d0 r0 first last (k + 1)
                / Dfin p u d0 first last (k + 1) := by
            ring
          rw [hmulr]
          ring
        · rw [Function.update_noteq hx, hIH.2 x]
          rw [if_neg (by
            rintro ⟨h1, _⟩
            exact hx h1.symm)]


/-- Forward-sweep invariant: after substituting indices `first+1, ..., k-1`,
entries in `[first, k)` hold the solution values `xsol`, later entries are
untouched. -/
theorem fsweep_inv (p : ℕ → ℕ) (u d0 r0 : ℕ → ℚ) (first last : ℕ)
    (hp : ∀ i, first < i → i < last → first ≤ p i ∧ p i < i) :
    ∀ k, first ≤ k → k ≤ last →
      ∀ dr : (ℕ → ℚ) × (ℕ → ℚ),
        (∀ x, dr.1 x = Dfin p u d0 first last x) →
        (dr.2 first = Rfin p u d0 r0 first last first
            / Dfin p u d0 first last first) →
        (∀ x, x ≠ first → dr.2 x = Rfin p u d0 r0 first last x) →
        (∀ x, ((icoList (first + 1) k).foldl (fstep p u) dr).1 x = dr.1 x) ∧
        (∀ x, ((icoList (first + 1) k).foldl (fstep p u) dr).2 x =
          if first ≤ x ∧ x < k then xsol p u d0 r0 first last x else dr.2 x) := by
  intro k
  induction k with
  | zero =>
    intro hk1 hk2 dr h1 h2 h3
    have he : icoList (first + 1) 0 = [] := icoList_eq_nil (by omega)
    rw [he]
    refine ⟨fun x => rfl, fun x => ?_⟩
    show dr.2 x = _
    rw [if_neg (by omega)]
  | succ k ih =>
    intro hk1 hk2 dr h1 h2 h3
    by_cases hkf : k < first + 1
    · -- no indices processed yet: the list [first+1, k+1) is empty
      have he : icoList (first + 1) (k + 1) = [] := icoList_eq_nil (by omega)
      rw [he]
      refine ⟨fun x => rfl, fun x => ?_⟩
      show dr.2 x = _
      by_cases hx : first ≤ x ∧ x < k + 1
      · have hxf : x = first := by omega
        rw [if_pos hx, hxf, xsol_eq_root]
        exact h2
      · rw [if_neg hx]
    · push_neg at hkf
      have hcat : icoList (first + 1) (k + 1) = icoList (first + 1) k ++ [k] :=
        icoList_concat hkf
      have hprev := ih (by omega) (by omega) dr h1 h2 h3
      set prev := (icoList (first + 1) k).foldl (fstep p u) dr with hprevdef
      have hfold : (icoList (first + 1) (k + 1)).foldl (fstep p u) dr
          = fstep p u prev k := by
        rw [hcat, List.foldl_append, List.foldl_cons, List.foldl_nil]
      have hk_last : k < last := by omega
      obtain ⟨hpk1, hpk2⟩ := hp k (by omega) hk_last
      have hprev_k : prev.2 k = Rfin p u d0 r0 first last k := by
        rw [hprev.2 k, if_neg (by omega)]
        exact h3 k (by omega)
      have hprev_dk : prev.1 k = Dfin p u d0 first last k := by
        rw [hprev.1 k]
        exact h1 k
      have hprev_pk : prev.2 (p k) = xsol p u d0 r0 first last (p k) := by
        rw [hprev.2 (p k), if_pos ⟨hpk1, hpk2⟩]
      constructor
      · intro x
        rw [hfold]
        show prev.1 x = dr.1 x
        exact hprev.1 x
      · intro x
        rw [hfold]
        show Function.update prev.2 k
          ((prev.2 k - u k * prev.2 (p k)) / prev.1 k) x = _
        by_cases hx : x = k
        · subst hx
          rw [Function.update_same, if_pos (by omega)]
          rw [hprev_k, hprev_dk, hprev_pk]
          rw [xsol_eq_inner p u d0 r0 first last x hpk2 (by omega)]
        · rw [Function.update_noteq hx, hprev.2 x]
          by_cases hx2 : first ≤ x ∧ x < k
          · rw [if_pos hx2, if_pos (by omega)]
          · rw [if_neg hx2, if_neg (by omega)]

/-- The `rhs` entries of one cell's `solveCell` pass are the `xsol` values. -/
theorem solveCell_rhs (p : ℕ → ℕ) (u d0 r0 : ℕ → ℚ) (first last : ℕ)
    (hp : ∀ i, first < i → i < last → first ≤ p i ∧ p i < i)
    (hne : d0 first ≠ 0) :
    ∀ x, first ≤ x → x < last →
      (solveCell p u first last (d0, r0)).2 x
        = xsol p u d0 r0 first last x := by
  intro x hx1 hx2
  unfold solveCell
  rw [if_neg hne]
  have hb := bsweep_inv p u d0 r0 first last hp (last - first) first
    (le_refl _) (le_refl _)
  set bs := ((icoList (first + 1) last).reverse).foldl (bstep p u) (d0, r0)
    with hbs
  have hbd : ∀ y, bs.1 y = Dfin p u d0 first last y := by
    intro y
    rw [hb.1 y, ← Dfin_eq]
  have hbr : ∀ y, bs.2 y = Rfin p u d0 r0 first last y := by
    intro y
    rw [hb.2 y, ← Rfin_eq]
  have hf := fsweep_inv p u d0 r0 first last hp last (by omega) (le_refl _)
    (bs.1, Function.update bs.2 first (bs.2 first / bs.1 first))
    (fun y => hbd y)
    (by
      show Function.update bs.2 first (bs.2 first / bs.1 first) first = _
      rw [Function.update_same, hbr first, hbd first])
    (by
      intro y hy
      show Function.update bs.2 first (bs.2 first / bs.1 first) y = _
      rw [Function.update_noteq hy, hbr y])
  rw [hf.2 x, if_pos ⟨hx1, hx2⟩]

/-- C1: for a cell CV range `[first, last)` with `d[first] ≠ 0`, parent
indices topological and in range, and no vanishing pivot divisor (the
post-elimination diagonal values `Dfin`), `solve` leaves in `rhs` the exact
solution of the symmetric tree-structured system given by the pre-solve
`d`, `u`, `rhs`: for every CV `i` of the range,
`d0[i]*x[i] + u[i]*x[p[i]] (for i > first) + Σ_{p[j]=i} u[j]*x[j] = rhs0[i]`. -/
theorem solve_exact (p : ℕ → ℕ) (u d0 r0 : ℕ → ℚ) (first last : ℕ)
    (hfl : first < last) (hne : d0 first ≠ 0)
    (hp : ∀ i, first < i → i < last → first ≤ p i ∧ p i < i)
    (hpiv : ∀ i, first ≤ i → i < last → Dfin p u d0 first last i ≠ 0) :
    ∀ i, first ≤ i → i < last →
      d0 i * (solveCell p u first last (d0, r0)).2 i
        + (if first < i
            then u i * (solveCell p u first last (d0, r0)).2 (p i) else 0)
        + ∑ j in (Finset.Ico (first + 1) last).filter (fun j => p j = i),
            u j * (solveCell p u first last (d0, r0)).2 j
      = r0 i := by
  intro i hi1 hi2
  have hx := solveCell_rhs p u d0 r0 first last hp hne
  -- rewrite all solve outputs as xsol values
  rw [hx i hi1 hi2]
  have hBif : (if first < i
      then u i * (solveCell p u first last (d0, r0)).2 (p i) else 0)
      = (if first < i then u i * xsol p u d0 r0 first last (p i) else 0) := by
    by_cases hfi : first < i
    · rw [if_pos hfi, if_pos hfi]
      obtain ⟨hp1, hp2⟩ := hp i hfi hi2
      rw [hx (p i) hp1 (by omega)]
    · rw [if_neg hfi, if_neg hfi]
  rw [hBif]
  have hfilter_eq : (Finset.Ico (first + 1) last).filter (fun j => p j = i)
      = (Finset.Ico (first + 1) last).filter (fun j => p j = i ∧ i < j) := by
    apply Finset.ext
    intro j
    simp only [Finset.mem_filter, Finset.mem_Ico]
    constructor
    · rintro ⟨⟨h1, h2⟩, h3⟩
      have := hp j (by omega) h2
      exact ⟨⟨h1, h2⟩, h3, by omega⟩
    · rintro ⟨⟨h1, h2⟩, h3, _⟩
      exact ⟨⟨h1, h2⟩, h3⟩
  have hsum_eq : ∑ j in (Finset.Ico (first + 1) last).filter (fun j => p j = i),
        u j * (solveCell p u first last (d0, r0)).2 j
      = ∑ j in (Finset.Ico (first + 1) last).filter (fun j => p j = i),
        (u j * Rfin p u d0 r0 first last j / Dfin p u d0 first last j
          - u j ^ 2 / Dfin p u d0 first last j * xsol p u d0 r0 first last i) := by
    apply Finset.sum_congr rfl
    intro j hj
    obtain ⟨hjIco, hpj⟩ := Finset.mem_filter.mp hj
    obtain ⟨hj1, hj2⟩ := Finset.mem_Ico.mp hjIco
    obtain ⟨hq1, hq2⟩ := hp j (by omega) hj2
    have hDj := hpiv j (by omega) hj2
    rw [hx j (by omega) hj2]
    rw [xsol_eq_inner p u d0 r0 first last j hq2 (by omega), hpj]
    field_simp
    ring
  rw [hsum_eq, Finset.sum_sub_distrib, ← Finset.sum_mul]
  have hDsum : ∑ j in (Finset.Ico (first + 1) last).filter (fun j => p j = i),
        u j ^ 2 / Dfin p u d0 first last j
      = d0 i - Dfin p u d0 first last i := by
    rw [hfilter_eq]
    have := Dfin_eq p u d0 first last i
    linarith [this]
  have hRsum : ∑ j in (Finset.Ico (first + 1) last).filter (fun j => p j = i),
        u j * Rfin p u d0 r0 first last j / Dfin p u d0 first last j
      = r0 i - Rfin p u d0 r0 first last i := by
    rw [hfilter_eq]
    have := Rfin_eq p u d0 r0 first last i
    linarith [this]
  rw [hDsum, hRsum]
  -- Remaining goal: d0 i * X + B + (r0 i - Rfin i) - (d0 i - Dfin i) * X = r0 i
  -- i.e. Dfin i * X + B = Rfin i.
  have hDi := hpiv i hi1 hi2
  by_cases hfi : first < i
  · rw [if_pos hfi]
    obtain ⟨hq1, hq2⟩ := hp i hfi hi2
    rw [xsol_eq_inner p u d0 r0 first last i hq2 hfi]
    field_simp
    ring
  · rw [if_neg hfi]
    have hif : i = first := by omega
    subst hif
    rw [xsol_eq_root]
    field_simp
    ring

/-- Witness for C1 at a concrete input: a single-CV cell `[0, 1)` with
`d = 2`, `rhs = 6`: the solved value satisfies the (trivial) tree system. -/
theorem solve_exact_witness :
    (0 : ℕ) < 1 ∧ ((fun _ => 2 : ℕ → ℚ) 0 ≠ 0) ∧
    ((fun _ => 2 : ℕ → ℚ) 0 *
        (solveCell (fun _ => 0) (fun _ => 0) 0 1
          ((fun _ => 2), (fun _ => 6))).2 0
      + 0
      + ∑ j in (Finset.Ico 1 1).filter (fun j => (fun _ => 0 : ℕ → ℕ) j = 0),
          (fun _ => 0 : ℕ → ℚ) j *
            (solveCell (fun _ => 0) (fun _ => 0) 0 1
              ((fun _ => 2), (fun _ => 6))).2 j
      = (fun _ => 6 : ℕ → ℚ) 0) := by
  have hpiv : ∀ i, 0 ≤ i → i < 1 →
      Dfin (fun _ => 0) (fun _ => 0) (fun _ => 2) 0 1 i ≠ 0 := by
    intro i _ hi
    have hi0 : i = 0 := by omega
    subst hi0
    rw [Dfin_eq]
    rw [Finset.Ico_self, Finset.filter_empty, Finset.sum_empty]
    norm_num
  have h := solve_exact (fun _ => 0) (fun _ => 0) (fun _ => 2) (fun _ => 6)
    0 1 (by omega) (by norm_num) (by intro i h1 h2; omega) hpiv 0 (by omega)
    (by omega)
  refine ⟨by omega, by norm_num, ?_⟩
  rw [if_neg (by omega)] at h
  exact h



/-! ## C9: `meet` of two piecewise partitions (src/arbor/util/piecewise.hpp
lines 265-302)

`meet` is a two-pointer merge over the two sorted vertex lists.  Element
accesses `a[ai]`, `b[bi]` are modelled in `Option` (an out-of-range C++
access is undefined behaviour).  The advancing reads
`a_right = a.interval(++ai).second` are modelled with a default value: on
the loop's final iteration the source may read one past the last interval,
but the value read is never used because the loop then exits. -/

/-- Modelled from the spec: `util::partition_view(vertex_).index(x)` from
`util/partition.hpp`, a file that is not among the source files.  It is the
standard two-pointer-merge interval lookup the spec describes:
`std::upper_bound` over the sorted vertex list, minus one — the index of
the interval containing `x`, i.e. (number of vertices `≤ x`) − 1. -/
def PW.pindex (w : PW α X) (x : α) : ℕ :=
  (w.vertex.countP (fun v => decide (v ≤ x))) - 1

/-- The loop of `meet` (lines 283-300).  State: current `left`, interval
indices `ai`, `bi`, cached interval right bounds `a_right`, `b_right`, and
the partition `m` built so far.  `fuel` bounds the iteration count (the
characterization theorem shows it is never exhausted). -/
def meetLoop (a : PW α X) (b : PW α Y) (rmin : α) :
    ℕ → α → ℕ → ℕ → α → α → PW α (X × Y) → Option (PW α (X × Y))
  | 0, left, _, _, _, _, m => if left < rmin then none else some m
  | fuel + 1, left, ai, bi, a_right, b_right, m =>
    if left < rmin then
      (a.element[ai]?).bind fun xa =>
      (b.element[bi]?).bind fun xb =>
      let right := min (min a_right b_right) rmin
      ((m.push_back left right (xa, xb)).toOption).bind fun m1 =>
      meetLoop a b rmin fuel right
        (if a_right ≤ right then ai + 1 else ai)
        (if b_right ≤ right then bi + 1 else bi)
        (if a_right ≤ right then a.vertex.getD (ai + 2) a_right else a_right)
        (if b_right ≤ right then b.vertex.getD (bi + 2) b_right else b_right)
        m1
    else some m

/-- `meet(a, b)` (lines 265-302). -/
def meet? (a : PW α X) (b : PW α Y) : Option (PW α (X × Y)) :=
  if a.size = 0 ∨ b.size = 0 then some ⟨[], []⟩
  else do
    let afront ← a.vertex.head?
    let bfront ← b.vertex.head?
    let aback ← a.vertex.getLast?
    let bback ← b.vertex.getLast?
    let lmax := max afront bfront
    let rmin := min aback bback
    if rmin < lmax then pure ⟨[], []⟩
    else
      let ai := a.pindex lmax
      let bi := b.pindex lmax
      if rmin = lmax then do
        let xa ← a.element[ai]?
        let xb ← b.element[bi]?
        (PW.push_back ⟨[], []⟩ lmax lmax (xa, xb)).toOption
      else do
        let a_right ← a.vertex[ai + 1]?
        let b_right ← b.vertex[bi + 1]?
        meetLoop a b rmin (a.size + b.size + 1) lmax ai bi a_right b_right
          ⟨[], []⟩



omit [LinearOrder α] in
theorem mem_of_getElem?_some {l : List α} {i : ℕ} {v : α} (h : l[i]? = some v) :
    v ∈ l := by
  obtain ⟨hl, rfl⟩ := List.getElem?_eq_some.mp h
  exact List.getElem_mem hl

/-- In a `≤`-sorted list, values are monotone in the index. -/
theorem sorted_le_of_getElem? {l : List α}
    (hs : l.Sorted (fun s t => s ≤ t)) {s t : ℕ} {x y : α} (hst : s ≤ t)
    (hx : l[s]? = some x) (hy : l[t]? = some y) : x ≤ y := by
  rcases eq_or_lt_of_le hst with rfl | h
  · rw [hx] at hy
    injection hy with hy
    exact le_of_eq hy
  · obtain ⟨hsl, hxe⟩ := List.getElem?_eq_some.mp hx
    obtain ⟨htl, hye⟩ := List.getElem?_eq_some.mp hy
    rw [← hxe, ← hye]
    exact List.pairwise_iff_getElem.mp hs s t hsl htl h

/-- In a `≤`-sorted list, entries below `countP (· ≤ x)` are `≤ x`. -/
theorem sorted_countP_le {l : List α}
    (hs : l.Sorted (fun s t => s ≤ t)) {x : α} :
    ∀ {t : ℕ} {v : α}, t + 1 ≤ l.countP (fun w => decide (w ≤ x)) →
      l[t]? = some v → v ≤ x := by
  induction l with
  | nil => intro t v ht hv; simp at hv
  | cons c u ih =>
    intro t v ht hv
    rw [List.countP_cons] at ht
    by_cases hc : c ≤ x
    · cases t with
      | zero =>
        simp only [List.getElem?_cons_zero, Option.some.injEq] at hv
        rw [← hv]
        exact hc
      | succ t =>
        simp only [List.getElem?_cons_succ] at hv
        by_cases hcount : t + 1 ≤ u.countP (fun w => decide (w ≤ x))
        · exact ih (List.sorted_cons.mp hs).2 hcount hv
        · exfalso
          simp [hc] at ht
          omega
    · exfalso
      have hzero : u.countP (fun w => decide (w ≤ x)) = 0 := by
        rw [List.countP_eq_zero]
        intro w hw
        simp only [decide_eq_true_eq]
        intro hwx
        exact hc (le_trans ((List.sorted_cons.mp hs).1 w hw) hwx)
      simp [hc, hzero] at ht

/-- In a `≤`-sorted list, entries from `countP (· ≤ x)` on are `> x`. -/
theorem sorted_countP_gt {l : List α}
    (hs : l.Sorted (fun s t => s ≤ t)) {x : α} :
    ∀ {t : ℕ} {v : α}, l.countP (fun w => decide (w ≤ x)) ≤ t →
      l[t]? = some v → x < v := by
  induction l with
  | nil => intro t v ht hv; simp at hv
  | cons c u ih =>
    intro t v ht hv
    rw [List.countP_cons] at ht
    by_cases hc : c ≤ x
    · rw [if_pos (by simp [hc])] at ht
      cases t with
      | zero => omega
      | succ t =>
        simp only [List.getElem?_cons_succ] at hv
        exact ih (List.sorted_cons.mp hs).2 (by omega) hv
    · cases t with
      | zero =>
        simp only [List.getElem?_cons_zero, Option.some.injEq] at hv
        rw [← hv]
        exact lt_of_not_le hc
      | succ t =>
        simp only [List.getElem?_cons_succ] at hv
        have hcv : c ≤ v :=
          (List.sorted_cons.mp hs).1 v (mem_of_getElem?_some hv)
        exact lt_of_lt_of_le (lt_of_not_le hc) hcv

/-- Successful `push_back`, spelled out (used by the `meet` analysis). -/
theorem push_back_ok_eq (w : PW α X) (l r : α) (e : X)
    (h1 : w.element = [] ∨ w.vertex.getLast? = some l) (h2 : l ≤ r) :
    w.push_back l r e =
      .ok ⟨(if w.vertex.isEmpty then [l] else w.vertex) ++ [r],
           w.element ++ [e]⟩ := by
  unfold PW.push_back
  have hg : ¬ (¬ w.element.isEmpty ∧ w.vertex.getLast? ≠ some l) := by
    rcases h1 with he | hv
    · intro h; exact h.1 (by simp [he])
    · intro h; exact h.2 hv
  rw [if_neg hg, if_neg (not_lt.mpr h2)]


/-- Element coverage: every interval of `m` carries the pair of an
`a`-element and a `b`-element whose intervals cover it. -/
def CoversAt (a : PW α X) (b : PW α Y) (m : PW α (X × Y)) : Prop :=
  ∀ t lt rt e, m.vertex[t]? = some lt → m.vertex[t + 1]? = some rt →
    m.element[t]? = some e →
    ((∃ i la ra, a.element[i]? = some e.1 ∧ a.vertex[i]? = some la ∧
        a.vertex[i + 1]? = some ra ∧ la ≤ lt ∧ rt ≤ ra) ∧
     (∃ j lb rb, b.element[j]? = some e.2 ∧ b.vertex[j]? = some lb ∧
        b.vertex[j + 1]? = some rb ∧ lb ≤ lt ∧ rt ≤ rb))

/-- Facts about `a`, `b`, `lmax` and `rmin` that stay fixed over the
`meet` loop. -/
structure MeetStatic (a : PW α X) (b : PW α Y) (lm rmin : α) : Prop where
  haso : a.vertex.Sorted (fun s t => s ≤ t)
  hbso : b.vertex.Sorted (fun s t => s ≤ t)
  halen : a.vertex.length = a.element.length + 1
  hblen : b.vertex.length = b.element.length + 1
  hlm : lm ∈ a.vertex ∨ lm ∈ b.vertex
  hrmin : rmin ∈ a.vertex ∨ rmin ∈ b.vertex
  hrmina : ∃ la, a.vertex.getLast? = some la ∧ rmin ≤ la
  hrminb : ∃ lb, b.vertex.getLast? = some lb ∧ rmin ≤ lb

/-- The `meet` loop invariant over its mutable state. -/
structure MeetInv (a : PW α X) (b : PW α Y) (lm rmin : α)
    (left : α) (ai bi : ℕ) (ar br : α) (m : PW α (X × Y)) : Prop where
  hlml : lm ≤ left
  hlr : left ≤ rmin
  hai : ai + 1 < a.vertex.length
  har : a.vertex[ai + 1]? = some ar
  hala : ∃ la, a.vertex[ai]? = some la ∧ la ≤ left
  harl : left ≤ ar
  hbi : bi + 1 < b.vertex.length
  hbr : b.vertex[bi + 1]? = some br
  hbla : ∃ lb, b.vertex[bi]? = some lb ∧ lb ≤ left
  hbrl : left ≤ br
  hm : (m.vertex = [] ∧ m.element = [] ∧ left = lm) ∨
       (m.vertex.head? = some lm ∧ m.vertex.getLast? = some left ∧
        m.element ≠ [] ∧ m.vertex.length = m.element.length + 1 ∧
        m.vertex.Sorted (fun s t => s ≤ t))
  hv : ∀ v, v ∈ m.vertex ↔
       ((v ∈ a.vertex ∨ v ∈ b.vertex) ∧ lm ≤ v ∧ v ≤ left ∧ m.vertex ≠ [])
  he : CoversAt a b m

/-- What `meet` produces on a proper overlap (all the claim's parts). -/
structure MeetOut (a : PW α X) (b : PW α Y) (lm rmin : α)
    (mf : PW α (X × Y)) : Prop where
  hhead : mf.vertex.head? = some lm
  hlast : mf.vertex.getLast? = some rmin
  hsorted : mf.vertex.Sorted (fun s t => s ≤ t)
  hlen : mf.vertex.length = mf.element.length + 1
  hne : mf.element ≠ []
  hv : ∀ v, v ∈ mf.vertex ↔
       ((v ∈ a.vertex ∨ v ∈ b.vertex) ∧ lm ≤ v ∧ v ≤ rmin)
  he : CoversAt a b mf

theorem meetLoop_exit (a : PW α X) (b : PW α Y) (rmin : α)
    (fuel : ℕ) (left : α) (ai bi : ℕ) (ar br : α) (m : PW α (X × Y))
    (h : ¬ left < rmin) :
    meetLoop a b rmin fuel left ai bi ar br m = some m := by
  cases fuel <;> simp [meetLoop, h]

/-- Main loop lemma: from any state satisfying the invariant, with enough
fuel, the loop returns a partition satisfying all of the claim's parts. -/
theorem meetLoop_spec (a : PW α X) (b : PW α Y) (lm rmin : α)
    (hst : MeetStatic a b lm rmin) :
    ∀ (fuel : ℕ) (left : α) (ai bi : ℕ) (ar br : α) (m : PW α (X × Y)),
      MeetInv a b lm rmin left ai bi ar br m →
      (left < rmin ∨ m.vertex ≠ []) →
      (a.element.length - ai) + (b.element.length - bi) ≤ fuel →
      ∃ mf, meetLoop a b rmin fuel left ai bi ar br m = some mf ∧
        MeetOut a b lm rmin mf := by
  intro fuel
  induction fuel with
  | zero =>
    intro left ai bi ar br m hinv hstart hfuel
    exfalso
    have h1 := hinv.hai
    have h2 := hst.halen
    omega
  | succ fuel ih =>
    intro left ai bi ar br m hinv hstart hfuel
    by_cases hlr : left < rmin
    · -- one more iteration
      have haiel : ai < a.element.length := by
        have := hinv.hai; have := hst.halen; omega
      have hbiel : bi < b.element.length := by
        have := hinv.hbi; have := hst.hblen; omega
      obtain ⟨xa, hxa⟩ : ∃ xa, a.element[ai]? = some xa :=
        ⟨_, List.getElem?_eq_getElem haiel⟩
      obtain ⟨xb, hxb⟩ : ∃ xb, b.element[bi]? = some xb :=
        ⟨_, List.getElem?_eq_getElem hbiel⟩
      set right := min (min ar br) rmin with hrightdef
      have hlr2 : left ≤ right :=
        le_min (le_min hinv.harl hinv.hbrl) (le_of_lt hlr)
      have hrr : right ≤ rmin := min_le_right _ _
      have hrar : right ≤ ar := le_trans (min_le_left _ _) (min_le_left _ _)
      have hrbr : right ≤ br := le_trans (min_le_left _ _) (min_le_right _ _)
      have hrmem : right ∈ a.vertex ∨ right ∈ b.vertex := by
        rcases le_total (min ar br) rmin with h | h
        · rcases le_total ar br with h2 | h2
          · left
            rw [hrightdef, min_eq_left h, min_eq_left h2]
            exact mem_of_getElem?_some hinv.har
          · right
            rw [hrightdef, min_eq_left h, min_eq_right h2]
            exact mem_of_getElem?_some hinv.hbr
        · rw [hrightdef, min_eq_right h]
          exact hst.hrmin
      have hpush := push_back_ok_eq m left right (xa, xb)
        (by
          rcases hinv.hm with ⟨_, he0, _⟩ | ⟨_, hl, _, _, _⟩
          · exact Or.inl he0
          · exact Or.inr hl) hlr2
      set m1 : PW α (X × Y) :=
        ⟨(if m.vertex.isEmpty then [left] else m.vertex) ++ [right],
         m.element ++ [(xa, xb)]⟩ with hm1def
      have hred : meetLoop a b rmin (fuel + 1) left ai bi ar br m
          = meetLoop a b rmin fuel right
              (if ar ≤ right then ai + 1 else ai)
              (if br ≤ right then bi + 1 else bi)
              (if ar ≤ right then a.vertex.getD (ai + 2) ar else ar)
              (if br ≤ right then b.vertex.getD (bi + 2) br else br)
              m1 := by
        conv_lhs => rw [meetLoop]
        rw [if_pos hlr, hxa, hxb]
        simp only [Option.some_bind]
        rw [hpush]
        simp only [Except.toOption, Option.some_bind]
      have hm1v : m1.vertex
          = (if m.vertex.isEmpty then [left] else m.vertex) ++ [right] := rfl
      have hm1e : m1.element = m.element ++ [(xa, xb)] := rfl
      have hoLen : (if m.vertex.isEmpty then [left] else m.vertex).length
          = m.element.length + 1 := by
        rcases hinv.hm with ⟨hv0, he0, _⟩ | ⟨_, _, _, hlen2, _⟩
        · rw [hv0, he0]
          simp
        · have hvne : m.vertex ≠ [] := by
            intro h
            rw [h] at hlen2
            simp at hlen2
          rw [if_neg (by simpa using hvne)]
          exact hlen2
      have holast : (if m.vertex.isEmpty then [left]
          else m.vertex)[m.element.length]? = some left := by
        rcases hinv.hm with ⟨hv0, he0, _⟩ | ⟨_, hl, _, hlen2, _⟩
        · rw [hv0, he0]
          simp
        · have hvne : m.vertex ≠ [] := by
            intro h
            rw [h] at hlen2
            simp at hlen2
          rw [if_neg (by simpa using hvne)]
          rw [List.getLast?_eq_getElem?] at hl
          rwa [show m.vertex.length - 1 = m.element.length by omega] at hl
      have hm1' : m1.vertex.head? = some lm ∧ m1.vertex.getLast? = some right ∧
          m1.element ≠ [] ∧ m1.vertex.length = m1.element.length + 1 ∧
          m1.vertex.Sorted (fun s t => s ≤ t) := by
        rcases hinv.hm with ⟨hv0, he0, hlm0⟩ | ⟨hh, hl, hne2, hlen2, hso⟩
        · refine ⟨?_, ?_, by simp [hm1e], ?_, ?_⟩
          · rw [hm1v, hv0]
            simp [hlm0]
          · rw [hm1v, hv0]
            simp
          · rw [hm1v, hm1e, hv0, he0]
            simp
          · rw [hm1v, hv0]
            simp [List.Sorted, hlr2]
        · have hvne : m.vertex ≠ [] := by
            intro h
            rw [h] at hh
            cases hh
          refine ⟨?_, ?_, by simp [hm1e], ?_, ?_⟩
          · rw [hm1v, if_neg (by simpa using hvne),
              List.head?_append_of_ne_nil _ hvne]
            exact hh
          · rw [hm1v, if_neg (by simpa using hvne)]
            simp
          · rw [hm1v, hm1e, if_neg (by simpa using hvne)]
            simp [hlen2]
          · rw [hm1v, if_neg (by simpa using hvne)]
            refine List.pairwise_append.mpr ⟨hso, by simp [List.Sorted], ?_⟩
            intro v hvm w hw
            rcases List.mem_singleton.mp hw with rfl
            have := ((hinv.hv v).mp hvm).2.2.1
            exact le_trans this hlr2
      have hm1ne : m1.vertex ≠ [] := by
        intro h
        rw [h] at hm1'
        cases hm1'.1
      have hv1 : ∀ v, v ∈ m1.vertex ↔
          ((v ∈ a.vertex ∨ v ∈ b.vertex) ∧ lm ≤ v ∧ v ≤ right ∧
            m1.vertex ≠ []) := by
        intro v
        constructor
        · intro hvm
          rw [hm1v] at hvm
          rcases List.mem_append.mp hvm with hvo | hvr
          · by_cases hemp : m.vertex.isEmpty
            · rw [if_pos hemp] at hvo
              rcases List.mem_singleton.mp hvo with rfl
              rcases hinv.hm with ⟨_, _, hlm0⟩ | ⟨hh, _, _, _, _⟩
              · subst hlm0
                exact ⟨hst.hlm, le_refl _, hlr2, hm1ne⟩
              · exfalso
                have : m.vertex = [] := by simpa using hemp
                rw [this] at hh
                cases hh
            · rw [if_neg hemp] at hvo
              have := (hinv.hv v).mp hvo
              exact ⟨this.1, this.2.1, le_trans this.2.2.1 hlr2, hm1ne⟩
          · rcases List.mem_singleton.mp hvr with rfl
            exact ⟨hrmem, le_trans hinv.hlml hlr2, le_refl _, hm1ne⟩
        · rintro ⟨hab, hlmv, hvr, _⟩
          rw [hm1v]
          by_cases hvleft : v ≤ left
          · rcases hinv.hm with ⟨hv0, he0, hlm0⟩ | ⟨hh, hl, hne2, hlen2, hso⟩
            · have hveq : v = left := le_antisymm hvleft (by
                rw [hlm0]
                exact hlmv)
              rw [hv0]
              simp [hveq]
            · have hvne : m.vertex ≠ [] := by
                intro h
                rw [h] at hh
                cases hh
              have : v ∈ m.vertex :=
                (hinv.hv v).mpr ⟨hab, hlmv, hvleft, hvne⟩
              rw [if_neg (by simpa using hvne)]
              exact List.mem_append.mpr (Or.inl this)
          · push_neg at hvleft
            have hveq : v = right := by
              rcases hab with hva | hvb
              · obtain ⟨t, ht, rfl⟩ := List.mem_iff_getElem.mp hva
                rcases Nat.lt_or_ge t (ai + 1) with htai | htai
                · exfalso
                  obtain ⟨la, hla, hlale⟩ := hinv.hala
                  have hle : a.vertex[t] ≤ la := sorted_le_of_getElem? hst.haso
                    (by omega) (List.getElem?_eq_getElem ht) hla
                  have := le_trans hle hlale
                  exact absurd hvleft (not_lt.mpr this)
                · have hge : ar ≤ a.vertex[t] := sorted_le_of_getElem? hst.haso
                    htai hinv.har (List.getElem?_eq_getElem ht)
                  exact le_antisymm hvr (le_trans hrar hge)
              · obtain ⟨t, ht, rfl⟩ := List.mem_iff_getElem.mp hvb
                rcases Nat.lt_or_ge t (bi + 1) with htbi | htbi
                · exfalso
                  obtain ⟨lb, hlb, hlble⟩ := hinv.hbla
                  have hle : b.vertex[t] ≤ lb := sorted_le_of_getElem? hst.hbso
                    (by omega) (List.getElem?_eq_getElem ht) hlb
                  have := le_trans hle hlble
                  exact absurd hvleft (not_lt.mpr this)
                · have hge : br ≤ b.vertex[t] := sorted_le_of_getElem? hst.hbso
                    htbi hinv.hbr (List.getElem?_eq_getElem ht)
                  exact le_antisymm hvr (le_trans hrbr hge)
            rw [hveq]
            exact List.mem_append.mpr (Or.inr (by simp))
      have he1 : CoversAt a b m1 := by
        intro t lt rt e hvt hvt1 het
        have htbound : t < m.element.length + 1 := by
          obtain ⟨hb, _⟩ := List.getElem?_eq_some.mp het
          rw [hm1e] at hb
          simp at hb
          omega
        by_cases hnew : t = m.element.length
        · -- the entry pushed this iteration
          have het' : e = (xa, xb) := by
            rw [hm1e, hnew] at het
            simp at het
            exact het.symm
          have hlt' : lt = left := by
            rw [hm1v, hnew, List.getElem?_append_left (by omega)] at hvt
            rw [holast] at hvt
            injection hvt with hvt
            exact hvt.symm
          have hrt' : rt = right := by
            rw [hm1v, hnew] at hvt1
            rw [show m.element.length + 1
              = (if m.vertex.isEmpty then [left] else m.vertex).length
              from hoLen.symm] at hvt1
            simp at hvt1
            exact hvt1.symm
          obtain ⟨la, hla, hlale⟩ := hinv.hala
          obtain ⟨lb, hlb, hlble⟩ := hinv.hbla
          subst het' hlt' hrt'
          refine ⟨⟨ai, la, ar, hxa, hla, hinv.har, hlale, hrar⟩,
                  ⟨bi, lb, br, hxb, hlb, hinv.hbr, hlble, hrbr⟩⟩
        · -- an entry of the previous state
          have htL : t < m.element.length := by omega
          have hmne2 : m.element ≠ [] := by
            intro h
            rw [h] at htL
            simp at htL
          have hvne : m.vertex ≠ [] := by
            rcases hinv.hm with ⟨_, he0, _⟩ | ⟨hh, _, _, _, _⟩
            · exact absurd he0 hmne2
            · intro h
              rw [h] at hh
              cases hh
          have hlen2 : m.vertex.length = m.element.length + 1 := by
            rcases hinv.hm with ⟨hv0, _, _⟩ | ⟨_, _, _, hlen2, _⟩
            · exact absurd hv0 hvne
            · exact hlen2
          have hifne : (if m.vertex.isEmpty then [left] else m.vertex)
              = m.vertex := if_neg (by simpa using hvne)
          have het2 : m.element[t]? = some e := by
            rw [hm1e, List.getElem?_append_left htL] at het
            exact het
          have hvt2 : m.vertex[t]? = some lt := by
            rw [hm1v, hifne, List.getElem?_append_left (by omega)] at hvt
            exact hvt
          have hvt12 : m.vertex[t + 1]? = some rt := by
            rw [hm1v, hifne, List.getElem?_append_left (by omega)] at hvt1
            exact hvt1
          exact hinv.he t lt rt e hvt2 hvt12 het2
      -- does the loop stop after this push?
      rcases eq_or_lt_of_le hrr with hreq | hrlt
      · -- right = rmin: the next check exits
        rw [hred, meetLoop_exit a b rmin fuel right _ _ _ _ m1
          (by rw [hreq]; exact lt_irrefl rmin)]
        obtain ⟨hh1, hl1, hne1, hlen1, hso1⟩ := hm1'
        refine ⟨m1, rfl, hh1, by rw [← hreq]; exact hl1, hso1, hlen1, hne1,
          ?_, he1⟩
        intro v
        rw [hv1 v, hreq]
        exact ⟨fun ⟨h1, h2, h3, _⟩ => ⟨h1, h2, h3⟩,
               fun ⟨h1, h2, h3⟩ => ⟨h1, h2, h3, hm1ne⟩⟩
      · -- right < rmin: continue with the advanced pointers
        have hA : (if ar ≤ right then ai + 1 else ai) + 1 < a.vertex.length ∧
            a.vertex[(if ar ≤ right then ai + 1 else ai) + 1]?
              = some (if ar ≤ right then a.vertex.getD (ai + 2) ar else ar) ∧
            (∃ la, a.vertex[(if ar ≤ right then ai + 1 else ai)]? = some la ∧
              la ≤ right) ∧
            right ≤ (if ar ≤ right then a.vertex.getD (ai + 2) ar else ar) := by
          by_cases hadv : ar ≤ right
          · have hra : right = ar := le_antisymm hrar hadv
            have hai2 : ai + 2 < a.vertex.length := by
              by_contra hcon
              push_neg at hcon
              obtain ⟨la, hla, hrla⟩ := hst.hrmina
              rw [List.getLast?_eq_getElem?,
                show a.vertex.length - 1 = ai + 1 by
                  have := hinv.hai; omega, hinv.har] at hla
              injection hla with hla
              rw [← hla] at hrla
              rw [hra] at hrlt
              exact absurd hrla (not_le.mpr hrlt)
            obtain ⟨ar2, har2⟩ : ∃ ar2, a.vertex[ai + 2]? = some ar2 :=
              ⟨_, List.getElem?_eq_getElem hai2⟩
            have hgetD : a.vertex.getD (ai + 2) ar = ar2 := by
              rw [List.getD_eq_getElem?_getD, har2]
              rfl
            rw [if_pos hadv, if_pos hadv, hgetD]
            refine ⟨by omega, ?_, ⟨ar, hinv.har, le_of_eq hra.symm⟩, ?_⟩
            · show a.vertex[ai + 1 + 1]? = some ar2
              rw [show ai + 1 + 1 = ai + 2 by omega]
              exact har2
            · rw [hra]
              exact sorted_le_of_getElem? hst.haso (by omega) hinv.har har2
          · rw [if_neg hadv, if_neg hadv]
            push_neg at hadv
            obtain ⟨la, hla, hlale⟩ := hinv.hala
            exact ⟨hinv.hai, hinv.har, ⟨la, hla, le_trans hlale hlr2⟩,
              le_of_lt hadv⟩
        have hB : (if br ≤ right then bi + 1 else bi) + 1 < b.vertex.length ∧
            b.vertex[(if br ≤ right then bi + 1 else bi) + 1]?
              = some (if br ≤ right then b.vertex.getD (bi + 2) br else br) ∧
            (∃ lb, b.vertex[(if br ≤ right then bi + 1 else bi)]? = some lb ∧
              lb ≤ right) ∧
            right ≤ (if br ≤ right then b.vertex.getD (bi + 2) br else br) := by
          by_cases hadv : br ≤ right
          · have hra : right = br := le_antisymm hrbr hadv
            have hbi2 : bi + 2 < b.vertex.length := by
              by_contra hcon
              push_neg at hcon
              obtain ⟨lb, hlb, hrlb⟩ := hst.hrminb
              rw [List.getLast?_eq_getElem?,
                show b.vertex.length - 1 = bi + 1 by
                  have := hinv.hbi; omega, hinv.hbr] at hlb
              injection hlb with hlb
              rw [← hlb] at hrlb
              rw [hra] at hrlt
              exact absurd hrlb (not_le.mpr hrlt)
            obtain ⟨br2, hbr2⟩ : ∃ br2, b.vertex[bi + 2]? = some br2 :=
              ⟨_, List.getElem?_eq_getElem hbi2⟩
            have hgetD : b.vertex.getD (bi + 2) br = br2 := by
              rw [List.getD_eq_getElem?_getD, hbr2]
              rfl
            rw [if_pos hadv, if_pos hadv, hgetD]
            refine ⟨by omega, ?_, ⟨br, hinv.hbr, le_of_eq hra.symm⟩, ?_⟩
            · show b.vertex[bi + 1 + 1]? = some br2
              rw [show bi + 1 + 1 = bi + 2 by omega]
              exact hbr2
            · rw [hra]
              exact sorted_le_of_getElem? hst.hbso (by omega) hinv.hbr hbr2
          · rw [if_neg hadv, if_neg hadv]
            push_neg at hadv
            obtain ⟨lb, hlb, hlble⟩ := hinv.hbla
            exact ⟨hinv.hbi, hinv.hbr, ⟨lb, hlb, le_trans hlble hlr2⟩,
              le_of_lt hadv⟩
        have hadv : ar ≤ right ∨ br ≤ right := by
          by_contra hno
          push_neg at hno
          have h1 : right < min ar br := lt_min hno.1 hno.2
          rcases le_total (min ar br) rmin with h | h
          · have h2 : right = min ar br := by
              rw [hrightdef, min_eq_left h]
            rw [h2] at h1
            exact absurd h1 (lt_irrefl _)
          · have h2 : right = rmin := by
              rw [hrightdef, min_eq_right h]
            exact absurd h2 (ne_of_lt hrlt)
        have hfuel2 : (a.element.length - (if ar ≤ right then ai + 1 else ai))
            + (b.element.length - (if br ≤ right then bi + 1 else bi))
            ≤ fuel := by
          rcases hadv with h1 | h1
          · rw [if_pos h1]
            by_cases h2 : br ≤ right
            · rw [if_pos h2]
              omega
            · rw [if_neg h2]
              omega
          · rw [if_pos h1]
            by_cases h2 : ar ≤ right
            · rw [if_pos h2]
              omega
            · rw [if_neg h2]
              omega
        obtain ⟨hh1, hl1, hne1, hlen1, hso1⟩ := hm1'
        rw [hred]
        exact ih right _ _ _ _ m1
          ⟨le_trans hinv.hlml hlr2, hrr, hA.1, hA.2.1, hA.2.2.1, hA.2.2.2,
           hB.1, hB.2.1, hB.2.2.1, hB.2.2.2,
           Or.inr ⟨hh1, hl1, hne1, hlen1, hso1⟩, hv1, he1⟩
          (Or.inr hm1ne) hfuel2
    · -- exit: the loop returns m unchanged
      refine ⟨m, meetLoop_exit a b rmin (fuel + 1) left ai bi ar br m hlr, ?_⟩
      have hmne : m.vertex ≠ [] := hstart.resolve_left hlr
      have hleft_eq : left = rmin := le_antisymm hinv.hlr (not_lt.mp hlr)
      rcases hinv.hm with ⟨hv0, _, _⟩ | ⟨hh, hl, hne2, hlen2, hso⟩
      · exact absurd hv0 hmne
      refine ⟨hh, by rw [← hleft_eq]; exact hl, hso, hlen2, hne2, ?_, hinv.he⟩
      intro v
      rw [hinv.hv v, hleft_eq]
      constructor
      · rintro ⟨h1, h2, h3, _⟩
        exact ⟨h1, h2, h3⟩
      · rintro ⟨h1, h2, h3⟩
        exact ⟨h1, h2, h3, hmne⟩


/-- C9 (amended): for non-empty partitions `a`, `b` whose supports overlap
with non-empty interior, `meet` returns the partition supported on the
intersection `[lmax, rmin]` of the supports, whose vertex set is exactly
the vertices of `a` and `b` within that intersection (`lmax` and `rmin`
included), in non-decreasing order, and whose every interval carries the
pair of the `a`- and `b`-elements covering it; for disjoint supports it
returns the empty partition. -/
theorem meet_spec (a : PW α X) (b : PW α Y) (af bf al bl : α)
    (haso : a.vertex.Sorted (fun s t => s ≤ t))
    (hbso : b.vertex.Sorted (fun s t => s ≤ t))
    (halen : a.vertex.length = a.element.length + 1)
    (hblen : b.vertex.length = b.element.length + 1)
    (hane : a.element ≠ []) (hbne : b.element ≠ [])
    (haf : a.vertex.head? = some af) (hbf : b.vertex.head? = some bf)
    (hal : a.vertex.getLast? = some al) (hbl : b.vertex.getLast? = some bl) :
    (min al bl < max af bf → meet? a b = some ⟨[], []⟩) ∧
    (max af bf < min al bl →
      ∃ mf, meet? a b = some mf ∧
        MeetOut a b (max af bf) (min al bl) mf) := by
  have hsz : ¬ (a.size = 0 ∨ b.size = 0) := by
    rintro (h | h)
    · exact hane (List.length_eq_zero.mp h)
    · exact hbne (List.length_eq_zero.mp h)
  constructor
  · intro hlt
    unfold meet?
    rw [if_neg hsz, haf, hbf, hal, hbl]
    simp only [Option.bind_eq_bind, Option.some_bind]
    rw [if_pos hlt]
    rfl
  · intro hgt
    set lm := max af bf with hlmdef
    set rmin := min al bl with hrmindef
    -- membership of the bounds
    have hafmem : af ∈ a.vertex := by
      have h := List.mem_of_mem_head? (l := a.vertex) (a := af) (by
        rw [haf]; rfl)
      exact h
    have hbfmem : bf ∈ b.vertex := by
      have h := List.mem_of_mem_head? (l := b.vertex) (a := bf) (by
        rw [hbf]; rfl)
      exact h
    have hlm_mem : lm ∈ a.vertex ∨ lm ∈ b.vertex := by
      rcases max_choice af bf with h | h
      · left; rw [hlmdef, h]; exact hafmem
      · right; rw [hlmdef, h]; exact hbfmem
    have hrmin_mem : rmin ∈ a.vertex ∨ rmin ∈ b.vertex := by
      rcases min_choice al bl with h | h
      · left; rw [hrmindef, h]; exact mem_of_getLast?_eq hal
      · right; rw [hrmindef, h]; exact mem_of_getLast?_eq hbl
    have hstatic : MeetStatic a b lm rmin :=
      ⟨haso, hbso, halen, hblen, hlm_mem, hrmin_mem,
       ⟨al, hal, min_le_left _ _⟩, ⟨bl, hbl, min_le_right _ _⟩⟩
    -- the initial interval index on the `a` side
    have hinit : ∀ (Z : Type) (w : PW α Z) (wf wl : α),
        w.vertex.Sorted (fun s t => s ≤ t) →
        w.vertex.length = w.element.length + 1 →
        w.element ≠ [] →
        w.vertex.head? = some wf → w.vertex.getLast? = some wl →
        wf ≤ lm → lm < wl →
        (w.pindex lm + 1 < w.vertex.length ∧
         (∃ la, w.vertex[w.pindex lm]? = some la ∧ la ≤ lm) ∧
         (∀ v, w.vertex[w.pindex lm + 1]? = some v → lm ≤ v)) := by
      intro Z w wf wl hwso hwlen hwne hwf hwl hwflm hlmwl
      have hwvne : w.vertex ≠ [] := by
        intro h
        rw [h] at hwf
        cases hwf
      have hcount1 : 1 ≤ w.vertex.countP (fun v => decide (v ≤ lm)) := by
        have : 0 < w.vertex.countP (fun v => decide (v ≤ lm)) :=
          List.countP_pos.mpr ⟨wf, List.mem_of_mem_head? (by rw [hwf]; rfl),
            by simpa using hwflm⟩
        omega
      have hcountlt : w.vertex.countP (fun v => decide (v ≤ lm))
          < w.vertex.length := by
        rcases Nat.lt_or_ge (w.vertex.countP (fun v => decide (v ≤ lm)))
          w.vertex.length with h | h
        · exact h
        · exfalso
          have hlast : w.vertex[w.vertex.length - 1]? = some wl := by
            rw [← List.getLast?_eq_getElem?]
            exact hwl
          have hle : wl ≤ lm := sorted_countP_le hwso (by
            have := List.countP_le_length
              (l := w.vertex) (p := fun v => decide (v ≤ lm))
            omega) hlast
          exact absurd hlmwl (not_lt.mpr hle)
      have hpi : w.pindex lm + 1
          = w.vertex.countP (fun v => decide (v ≤ lm)) := by
        unfold PW.pindex
        omega
      refine ⟨by omega, ?_, ?_⟩
      · obtain ⟨la, hla⟩ : ∃ la, w.vertex[w.pindex lm]? = some la :=
          ⟨_, List.getElem?_eq_getElem (by omega)⟩
        exact ⟨la, hla, sorted_countP_le hwso (by omega) hla⟩
      · intro v hv
        exact le_of_lt (sorted_countP_gt hwso (by omega) hv)
    have hA := hinit X a af al haso halen hane haf hal (le_max_left _ _)
      (lt_of_lt_of_le hgt (min_le_left _ _))
    have hB := hinit Y b bf bl hbso hblen hbne hbf hbl (le_max_right _ _)
      (lt_of_lt_of_le hgt (min_le_right _ _))
    obtain ⟨ar, har⟩ : ∃ ar, a.vertex[a.pindex lm + 1]? = some ar :=
      ⟨_, List.getElem?_eq_getElem hA.1⟩
    obtain ⟨br, hbr⟩ : ∃ br, b.vertex[b.pindex lm + 1]? = some br :=
      ⟨_, List.getElem?_eq_getElem hB.1⟩
    have hinv : MeetInv a b lm rmin lm (a.pindex lm) (b.pindex lm) ar br
        ⟨[], []⟩ :=
      ⟨le_refl _, le_of_lt hgt, hA.1, har, hA.2.1, hA.2.2 ar har,
       hB.1, hbr, hB.2.1, hB.2.2 br hbr,
       Or.inl ⟨rfl, rfl, rfl⟩,
       by
        intro v
        constructor
        · intro h
          cases h
        · rintro ⟨_, _, _, h⟩
          exact absurd rfl h,
       by
        intro t lt rt e h1 h2 h3
        simp at h1⟩
    obtain ⟨mf, hrun, hout⟩ := meetLoop_spec a b lm rmin hstatic
      (a.size + b.size + 1) lm (a.pindex lm) (b.pindex lm) ar br ⟨[], []⟩
      hinv (Or.inl hgt) (by
        unfold PW.size
        omega)
    refine ⟨mf, ?_, hout⟩
    unfold meet?
    rw [if_neg hsz, haf, hbf, hal, hbl]
    simp only [Option.bind_eq_bind, Option.some_bind]
    rw [← hlmdef, ← hrmindef]
    rw [if_neg (not_lt.mpr (le_of_lt hgt)), if_neg (ne_of_gt hgt), har, hbr]
    simp only [Option.some_bind]
    exact hrun

/-- C9 counterexample: for two partitions whose supports merely touch
(`[0,1]` and `[1,2]`), `meet` computes interval index `1` for the single
point `1` on the left partition and reads element `a[1]` one past the end
of its element list (undefined behaviour in the source, `none` in the
embedding), instead of producing the paired single-point partition the
claim describes. -/
theorem meet_touching_oob :
    meet? (⟨[0, 1], [10]⟩ : PW ℚ ℤ) (⟨[1, 2], [20]⟩ : PW ℚ ℤ) = none ∧
    PW.ok (⟨[(0 : ℚ), 1], [(10 : ℤ)]⟩ : PW ℚ ℤ) ∧
    PW.ok (⟨[(1 : ℚ), 2], [(20 : ℤ)]⟩ : PW ℚ ℤ) ∧
    (⟨[(0 : ℚ), 1], [(10 : ℤ)]⟩ : PW ℚ ℤ).pindex 1 = 1 ∧
    (⟨[(0 : ℚ), 1], [(10 : ℤ)]⟩ : PW ℚ ℤ).element.length = 1 := by
  refine ⟨by decide, ?_, ?_, by decide, by decide⟩
  · right
    exact ⟨by decide, by decide, by decide⟩
  · right
    exact ⟨by decide, by decide, by decide⟩

/-- Witness for C9 at concrete inputs: `[0,2]/[10]` against
`[1,3]/[20]` (proper overlap) and `[0,1]` against `[2,3]` (disjoint). -/
theorem meet_spec_witness :
    (meet? (⟨[0, 1], [10]⟩ : PW ℚ ℤ) (⟨[2, 3], [20]⟩ : PW ℚ ℤ)
      = some ⟨[], []⟩) ∧
    (∃ mf, meet? (⟨[0, 2], [10]⟩ : PW ℚ ℤ) (⟨[1, 3], [20]⟩ : PW ℚ ℤ)
      = some mf ∧
      MeetOut (⟨[0, 2], [10]⟩ : PW ℚ ℤ) (⟨[1, 3], [20]⟩ : PW ℚ ℤ)
        (max (0 : ℚ) 1) (min (2 : ℚ) 3) mf) := by
  constructor
  · have h := meet_spec (⟨[0, 1], [10]⟩ : PW ℚ ℤ) (⟨[2, 3], [20]⟩ : PW ℚ ℤ)
      0 2 1 3 (by decide) (by decide)
      (by decide) (by decide) (by decide) (by decide)
      rfl rfl rfl rfl
    exact h.1 (by norm_num)
  · have h := meet_spec (⟨[0, 2], [10]⟩ : PW ℚ ℤ) (⟨[1, 3], [20]⟩ : PW ℚ ℤ)
      0 1 2 3 (by decide) (by decide)
      (by decide) (by decide) (by decide) (by decide)
      rfl rfl rfl rfl
    exact h.2 (by norm_num)



/-! ## Embedding (src/arbor/morph/embed_pwlin1d.cpp with util/rat_element.hpp)

Real arithmetic here involves `π` and `sqrt`, which have no executable
code over `ℝ`; to keep every definition computable the embedding is
stated over an arbitrary linear ordered field `R`, taking `pi : R` and
`sqrt : R → R` as parameters.  The theorems instantiate `R := ℝ`,
`pi := Real.pi`, `sqrt := Real.sqrt`.  A `rat_element<p, q>` stores its
values on the `p+q+1` nodes; its evaluation `rat_eval` is implemented in
the source for the linear order only and throws `std::logic_error`
otherwise. -/

structure RatElem (R : Type) where
  p : ℕ
  q : ℕ
  nodes : List R

section Embed

variable {R : Type} [LinearOrderedField R] [DecidableEq R]

/-- `math.hpp` linear interpolation. -/
def lerp (u v x : R) : R := u + x * (v - u)

/-- `impl::rat_eval<p, q>::apply` (util/rat_element.hpp): linear only,
`std::logic_error` otherwise. -/
def ratEval (e : RatElem R) (x : R) : Except String R :=
  if e.p = 1 ∧ e.q = 0 then
    .ok (lerp (e.nodes.getD 0 0) (e.nodes.getD (e.p + e.q) 0) x)
  else
    .error "woah, not implemented!"

/-- `pw_elements::index_of` (src/arbor/util/piecewise.hpp): last element
when `x` equals the upper bound, else the containing interval's index
(`PW.pindex`, modelled from the spec). -/
def PW.index_of (w : PW R X) (x : R) : ℕ :=
  if w.vertex.getLast? = some x then w.size - 1 else w.pindex x

/-- `interpolate(f, bid, pos)` (embed_pwlin1d.cpp): look up the element
containing `pos` and evaluate it on the renormalized coordinate; a
degenerate interval returns the element's first node. -/
def interpolate (pw : PW R (RatElem R)) (pos : R) : Except String R :=
  let i := pw.index_of pos
  match pw.element[i]?, pw.vertex[i]?, pw.vertex[i + 1]? with
  | some el, some x0, some x1 =>
    if x0 = x1 then .ok (el.nodes.getD 0 0)
    else ratEval el ((pos - x0) / (x1 - x0))
  | _, _, _ => .error "index out of range"

/-- `integrate(f, bid, g)` (embed_pwlin1d.cpp): accumulate
`g.element(i) * (interpolate(f, bid, right_i) - interpolate(f, bid, left_i))`
over the pieces of the weight function `g`. -/
def integrate (f : PW R (RatElem R)) (g : PW R R) : Except String R :=
  (icoList 0 g.size).foldl
    (fun acc i => do
      let s ← acc
      match g.element[i]?, g.vertex[i]?, g.vertex[i + 1]? with
      | some c, some x0, some x1 => do
        let v1 ← interpolate f x1
        let v0 ← interpolate f x0
        pure (s + c * (v1 - v0))
      | _, _, _ => Except.error "bad weight function")
    (.ok 0)

/-- `integrate_area`/`integrate_ixa` on a cable `(prox, dist)` of one
branch: the weight function is `pw_constant_fn\x7b\x7bprox, dist\x7d, \x7b1.\x7d\x7d`. -/
def integrateCable (f : PW R (RatElem R)) (prox dist : R) : Except String R :=
  integrate f ⟨[prox, dist], [1]⟩

/-- Spherical-root branch data (embed_pwlin1d.cpp lines 109-124):
length over `[0, 1]`, linear from `0` to `2r`. -/
def sphereLength (r : R) : PW R (RatElem R) :=
  ⟨[0, 1], [⟨1, 0, [0, r * 2]⟩]⟩

/-- Spherical-root radius: constant `r` over `[0, 1]`. -/
def sphereRadius (r : R) : PW R (RatElem R) :=
  ⟨[0, 1], [⟨1, 0, [r, r]⟩]⟩

/-- Spherical-root area: quadratic nodes `(0, cyl_area*0.5, cyl_area)`
with `cyl_area = 4πr²`. -/
def sphereArea (pi r : R) : PW R (RatElem R) :=
  ⟨[0, 1], [⟨2, 0, [0, 4 * pi * r * r * (1 / 2), 4 * pi * r * r]⟩]⟩

/-- Spherical-root ixa: order-(1,1) nodes `(0, cyl_ixa*0.5, cyl_ixa)`
with `cyl_ixa = 2/(πr)`. -/
def sphereIxa (pi r : R) : PW R (RatElem R) :=
  ⟨[0, 1], [⟨1, 1, [0, 2 / (pi * r) * (1 / 2), 2 / (pi * r)]⟩]⟩

/-- `mpoint`: 3-d sample point with radius. -/
structure MPoint (R : Type) where
  x : R
  y : R
  z : R
  radius : R

/-- `distance(p, q)` between sample points. -/
def dist3 (sqrt : R → R) (u v : MPoint R) : R :=
  sqrt ((u.x - v.x) ^ 2 + (u.y - v.y) ^ 2 + (u.z - v.z) ^ 2)

/-- Cumulative `sample_distance` (embed_pwlin1d.cpp lines 127-137):
running sums of consecutive sample distances. -/
def cumDistAux (sqrt : R → R) : MPoint R → R → List (MPoint R) → List R
  | _, _, [] => []
  | prev, acc, q :: rest =>
    (acc + dist3 sqrt prev q) :: cumDistAux sqrt q (acc + dist3 sqrt prev q) rest

/-- `sample_distance`: `0` followed by the cumulative distances. -/
def sampleDistances (sqrt : R → R) (samples : List (MPoint R)) : List R :=
  match samples with
  | [] => [0]
  | q :: rest => 0 :: cumDistAux sqrt q 0 rest

/-- Normalized sample positions (lines 139-147): `length_scale *
sample_distance[i]` with the final position overwritten to `1`, zipped
with the radii. -/
def branchXR (sqrt : R → R) (samples : List (MPoint R)) : List (R × R) :=
  let c := sampleDistances sqrt samples
  let branch_length := c.getLastD 0
  let xs := (c.map (fun d => 1 / branch_length * d)).set (c.length - 1) 1
  xs.zip (samples.map (fun s => s.radius))

/-- The per-pair `area` elements of a non-spherical branch
(lines 161-180), with the final cumulative value: each non-degenerate
pair contributes the element `(area_0, area_0 + (0.75*r0+0.25*r1)*c,
area_0 + (r0+r1)*c)` with `c = π*sqrt((r1-r0)^2 + (x1-x0)^2)`. -/
def areaElems (pi : R) (sqrt : R → R) :
    R → R × R → List (R × R) → List (R × R × RatElem R) × R
  | area0, _, [] => ([], area0)
  | area0, (x0, r0), (x1, r1) :: rest =>
    if x0 = x1 then areaElems pi sqrt area0 (x1, r1) rest
    else
      let c := pi * sqrt ((r1 - r0) ^ 2 + (x1 - x0) ^ 2)
      let area1 := area0 + (r0 + r1) * c
      let segs := areaElems pi sqrt area1 (x1, r1) rest
      ((x0, x1, ⟨2, 0, [area0, area0 + (3 / 4 * r0 + 1 / 4 * r1) * c, area1]⟩)
          :: segs.1,
       segs.2)

/-- The per-pair `ixa` elements (lines 177-179): each non-degenerate pair
contributes `(ixa_0, ixa_0 + (x1-x0)/(π*r0*(r0+r1)),
ixa_0 + (x1-x0)/(π*r0*r1))`. -/
def ixaElems (pi : R) :
    R → R × R → List (R × R) → List (R × R × RatElem R) × R
  | ixa0, _, [] => ([], ixa0)
  | ixa0, (x0, r0), (x1, r1) :: rest =>
    if x0 = x1 then ixaElems pi ixa0 (x1, r1) rest
    else
      let ixa1 := ixa0 + (x1 - x0) / (pi * r0 * r1)
      let segs := ixaElems pi ixa1 (x1, r1) rest
      ((x0, x1, ⟨1, 1,
          [ixa0, ixa0 + (x1 - x0) / (pi * r0 * (r0 + r1)), ixa1]⟩)
          :: segs.1,
       segs.2)

/-- Assembling the contiguous segments into a `pw_elements` value (the
sequence of `push_back(x0, x1, elem)` calls of the construction loop). -/
def pwOfSegs (segs : List (R × R × RatElem R)) : PW R (RatElem R) :=
  match segs with
  | [] => ⟨[], []⟩
  | (x0, _, _) :: _ =>
    ⟨x0 :: segs.map (fun s => s.2.1), segs.map (fun s => s.2.2)⟩

/-- The `area` piecewise data of a root (non-spherical) branch together
with its final cumulative value. -/
def branchArea (pi : R) (sqrt : R → R) (samples : List (MPoint R)) :
    PW R (RatElem R) × R :=
  match branchXR sqrt samples with
  | [] => (⟨[], []⟩, 0)
  | pr :: rest =>
    let segs := areaElems pi sqrt 0 pr rest
    (pwOfSegs segs.1, segs.2)

/-- The `ixa` piecewise data of a root (non-spherical) branch together
with its final cumulative value. -/
def branchIxa (pi : R) (sqrt : R → R) (samples : List (MPoint R)) :
    PW R (RatElem R) × R :=
  match branchXR sqrt samples with
  | [] => (⟨[], []⟩, 0)
  | pr :: rest =>
    let segs := ixaElems pi 0 pr rest
    (pwOfSegs segs.1, segs.2)

/-- The claim's conic-frustum lateral area over the sample pairs:
`π*(r0+r1)*sqrt((r1-r0)^2 + d^2)` with `d` the Euclidean distance. -/
def specFrustumAreaSum (pi : R) (sqrt : R → R) : List (MPoint R) → R
  | [] => 0
  | [_] => 0
  | u :: v :: rest =>
    pi * (u.radius + v.radius) *
        sqrt ((v.radius - u.radius) ^ 2 + dist3 sqrt u v ^ 2)
      + specFrustumAreaSum pi sqrt (v :: rest)

/-- The claim's per-pair inverse axial resistance: `d/(π*r0*r1)`. -/
def specIxaSum (pi : R) (sqrt : R → R) : List (MPoint R) → R
  | [] => 0
  | [_] => 0
  | u :: v :: rest =>
    dist3 sqrt u v / (pi * u.radius * v.radius) + specIxaSum pi sqrt (v :: rest)

end Embed

/-! ## C5: `cv_policy_fixed_per_branch::cv_boundary_points`
(src/arbor/cv_policy.cpp lines 46-74), the per-component-cable point
emission. -/

structure MLoc where
  branch : ℕ
  pos : ℚ
deriving DecidableEq

/-- The points the policy emits for one component cable
`(branch, prox, dist)`: `scale = (dist_pos - prox_pos)/n`; with
`interior_forks` the points `(1+2i)*scale/2` for `i < n`, otherwise
`i*scale` for `i < n` followed by `dist_pos`. -/
def fixedPerBranchPoints (n : ℕ) (interior_forks : Bool) (branch : ℕ)
    (prox dist : ℚ) : List MLoc :=
  let ooncv : ℚ := 1 / n
  let scale := (dist - prox) * ooncv
  if interior_forks then
    (List.range n).map (fun i => ⟨branch, (1 + 2 * i) * scale / 2⟩)
  else
    ((List.range n).map (fun i => ⟨branch, i * scale⟩)) ++ [⟨branch, dist⟩]



/-- On a one-element container over `[0, 1]` whose element order is not
`(1, 0)`, integrating over the cable `(0, 1)` propagates the
`rat_eval` exception. -/
theorem integrateCable01_err {R : Type} [LinearOrderedField R] [DecidableEq R]
    (w : PW R (RatElem R)) (e : RatElem R)
    (hv : w.vertex = [0, 1]) (hel : w.element = [e])
    (he : ¬ (e.p = 1 ∧ e.q = 0)) :
    integrateCable w 0 1 = .error "woah, not implemented!" := by
  have hsz : w.size = 1 := by simp [PW.size, hel]
  have hico : icoList 0 1 = [0] := by decide
  have hinterp : interpolate w 1 = .error "woah, not implemented!" := by
    have hidx : w.index_of 1 = 0 := by
      simp [PW.index_of, hv, hsz, List.getLast?]
    simp only [interpolate, hidx, hel, hv]
    simp only [List.getElem?_cons_zero, List.getElem?_cons_succ]
    rw [if_neg (by norm_num : ¬ ((0:R) = 1))]
    simp [ratEval, he]
  simp only [integrateCable, integrate]
  rw [show (({ vertex := [0, 1], element := [1] } : PW R R)).size = 1 from rfl,
    hico]
  simp only [List.foldl_cons, List.foldl_nil, List.getElem?_cons_zero,
    List.getElem?_cons_succ]
  simp only [hinterp]
  rfl

/-- The two-sample input refuting C4: a straight branch of length 2 with
both radii 1. -/
def c4samples : List (MPoint ℝ) := [⟨0, 0, 0, 1⟩, ⟨2, 0, 0, 1⟩]

theorem c4_dist :
    dist3 Real.sqrt (⟨0, 0, 0, 1⟩ : MPoint ℝ) ⟨2, 0, 0, 1⟩ = 2 := by
  unfold dist3
  norm_num
  rw [show (4:ℝ) = 2 ^ 2 by norm_num]
  exact Real.sqrt_sq (by norm_num)

theorem c4_branchXR : branchXR Real.sqrt c4samples = [(0, 1), (1, 1)] := by
  have hd : dist3 Real.sqrt (⟨0, 0, 0, 1⟩ : MPoint ℝ) ⟨2, 0, 0, 1⟩ = 2 :=
    c4_dist
  simp [branchXR, c4samples, sampleDistances, cumDistAux, hd,
    List.getLastD, List.set]

/-- C4: on a straight two-sample branch of Euclidean length 2 with both
radii 1, the embedding stores a cumulative branch area of `2π` where the
conic-frustum sum of the claim is `4π`, and a cumulative ixa of `1/π`
where the claim's sum is `2/π` (the construction uses the normalized
positions `x1 - x0` in place of lengths, dropping the branch-length
factor); moreover `integrate_area` and `integrate_ixa` over the whole
cable `(0, 1)` do not return these values but throw
`std::logic_error("woah, not implemented!")`, because `rat_eval` is only
implemented for the linear order and the stored elements have orders
`(2, 0)` and `(1, 1)`. -/
theorem branch_area_ixa_divergence :
    (branchArea Real.pi Real.sqrt c4samples).2 = 2 * Real.pi ∧
    specFrustumAreaSum Real.pi Real.sqrt c4samples = 4 * Real.pi ∧
    (branchIxa Real.pi Real.sqrt c4samples).2 = 1 / Real.pi ∧
    specIxaSum Real.pi Real.sqrt c4samples = 2 / Real.pi ∧
    2 * Real.pi ≠ 4 * Real.pi ∧ (1 : ℝ) / Real.pi ≠ 2 / Real.pi ∧
    integrateCable (branchArea Real.pi Real.sqrt c4samples).1 0 1
      = .error "woah, not implemented!" ∧
    integrateCable (branchIxa Real.pi Real.sqrt c4samples).1 0 1
      = .error "woah, not implemented!" := by
  have h01 : ¬ ((0:ℝ) = 1) := by norm_num
  have hs1 : Real.sqrt (((1:ℝ) - 1) ^ 2 + ((1:ℝ) - 0) ^ 2) = 1 := by
    rw [show ((1:ℝ) - 1) ^ 2 + ((1:ℝ) - 0) ^ 2 = 1 by norm_num]
    exact Real.sqrt_one
  have hAE : areaElems Real.pi Real.sqrt 0 ((0:ℝ), 1) [((1:ℝ), 1)] =
      ([(0, 1, ⟨2, 0, [0, 0 + (3 / 4 * 1 + 1 / 4 * 1) * (Real.pi * 1),
          0 + (1 + 1) * (Real.pi * 1)]⟩)],
        0 + (1 + 1) * (Real.pi * 1)) := by
    simp only [areaElems]
    rw [if_neg h01]
    simp only [areaElems, hs1]
  have hIE : ixaElems Real.pi 0 ((0:ℝ), 1) [((1:ℝ), 1)] =
      ([(0, 1, ⟨1, 1, [0, 0 + (1 - 0) / (Real.pi * 1 * (1 + 1)),
          0 + (1 - 0) / (Real.pi * 1 * 1)]⟩)],
        0 + (1 - 0) / (Real.pi * 1 * 1)) := by
    simp only [ixaElems]
    rw [if_neg h01]
  have hba : branchArea Real.pi Real.sqrt c4samples =
      (⟨[0, 1], [⟨2, 0, [0, 0 + (3 / 4 * 1 + 1 / 4 * 1) * (Real.pi * 1),
          0 + (1 + 1) * (Real.pi * 1)]⟩]⟩,
        0 + (1 + 1) * (Real.pi * 1)) := by
    simp only [branchArea, c4_branchXR, hAE, pwOfSegs, List.map]
  have hbi : branchIxa Real.pi Real.sqrt c4samples =
      (⟨[0, 1], [⟨1, 1, [0, 0 + (1 - 0) / (Real.pi * 1 * (1 + 1)),
          0 + (1 - 0) / (Real.pi * 1 * 1)]⟩]⟩,
        0 + (1 - 0) / (Real.pi * 1 * 1)) := by
    simp only [branchIxa, c4_branchXR, hIE, pwOfSegs, List.map]
  refine ⟨?_, ?_, ?_, ?_, ?_, ?_, ?_, ?_⟩
  · rw [hba]; ring
  · have hd : dist3 Real.sqrt (⟨0, 0, 0, 1⟩ : MPoint ℝ) ⟨2, 0, 0, 1⟩ = 2 :=
      c4_dist
    show Real.pi * ((1:ℝ) + 1) *
        Real.sqrt (((1:ℝ) - 1) ^ 2 +
          dist3 Real.sqrt (⟨0, 0, 0, 1⟩ : MPoint ℝ) ⟨2, 0, 0, 1⟩ ^ 2) +
        0 = 4 * Real.pi
    rw [hd, show ((1:ℝ) - 1) ^ 2 + (2:ℝ) ^ 2 = 2 ^ 2 by norm_num,
      Real.sqrt_sq (by norm_num : (0:ℝ) ≤ 2)]
    ring
  · rw [hbi]; ring_nf
  · have hd : dist3 Real.sqrt (⟨0, 0, 0, 1⟩ : MPoint ℝ) ⟨2, 0, 0, 1⟩ = 2 :=
      c4_dist
    show dist3 Real.sqrt (⟨0, 0, 0, 1⟩ : MPoint ℝ) ⟨2, 0, 0, 1⟩ /
        (Real.pi * 1 * 1) + 0 = 2 / Real.pi
    rw [hd]; ring_nf
  · intro h; have := Real.pi_pos; linarith
  · intro h
    rw [div_eq_div_iff Real.pi_ne_zero Real.pi_ne_zero] at h
    have := Real.pi_pos; linarith
  · rw [hba]
    exact integrateCable01_err _ _ rfl rfl (by norm_num)
  · rw [hbi]
    exact integrateCable01_err _ _ rfl rfl (by norm_num)

/-- C7: for a spherical root of radius 1 the stored branch data is as
claimed — the length function evaluates to `2r` at position 1, the radius
is constantly `r`, the area element's final node is `4πr²` and the ixa
element's final node is `2/(πr)` — but `integrate_area` and
`integrate_ixa` over the cable `(0, 0, 1)` do not return `4πr²` and
`2/(πr)`: they throw `std::logic_error("woah, not implemented!")`, since
`rat_eval` is only implemented for the linear order and the stored area
and ixa elements have orders `(2, 0)` and `(1, 1)`. -/
theorem sphere_embed_divergence :
    interpolate (sphereLength (1:ℝ)) 1 = .ok 2 ∧
    interpolate (sphereRadius (1:ℝ)) (1 / 2) = .ok 1 ∧
    ((sphereArea Real.pi (1:ℝ)).element.getD 0 ⟨0, 0, []⟩).nodes.getD 2 0
      = 4 * Real.pi ∧
    ((sphereIxa Real.pi (1:ℝ)).element.getD 0 ⟨0, 0, []⟩).nodes.getD 2 0
      = 2 / Real.pi ∧
    integrateCable (sphereArea Real.pi (1:ℝ)) 0 1
      = .error "woah, not implemented!" ∧
    integrateCable (sphereIxa Real.pi (1:ℝ)) 0 1
      = .error "woah, not implemented!" := by
  refine ⟨?_, ?_, ?_, ?_, ?_, ?_⟩
  · have hidx : (sphereLength (1:ℝ)).index_of 1 = 0 := by
      simp [PW.index_of, sphereLength, PW.size, List.getLast?]
    simp only [interpolate, hidx]
    simp only [sphereLength, List.getElem?_cons_zero, List.getElem?_cons_succ]
    rw [if_neg (by norm_num : ¬ ((0:ℝ) = 1))]
    simp [ratEval, lerp]
  · have hidx : (sphereRadius (1:ℝ)).index_of (1 / 2) = 0 := by
      simp [PW.index_of, sphereRadius, PW.size, PW.pindex, List.getLast?]
      norm_num
    simp only [interpolate, hidx]
    simp only [sphereRadius, List.getElem?_cons_zero, List.getElem?_cons_succ]
    rw [if_neg (by norm_num : ¬ ((0:ℝ) = 1))]
    simp [ratEval, lerp]
  · simp [sphereArea]
  · simp [sphereIxa]
  · exact integrateCable01_err _ _ rfl rfl (by norm_num)
  · exact integrateCable01_err _ _ rfl rfl (by norm_num)

/-- C5: with `cv_policy_fixed_per_branch(1)` on the component cable
`(branch 0, prox 1/2, dist 1)`, the emitted points are `(0, 0)` and
`(0, 1)` without the `interior_forks` flag and `(0, 1/4)` with it — the
code multiplies `i*scale` (resp. `(1+2i)*scale/2`) without adding the
component's `prox_pos`, so the emitted position `0` (resp. `1/4`) lies
outside `[prox, dist] = [1/2, 1]`, contradicting the claimed
`prox + i*(dist-prox)/n` spacing. -/
theorem fixed_per_branch_points_not_offset :
    fixedPerBranchPoints 1 false 0 (1 / 2) 1 = [⟨0, 0⟩, ⟨0, 1⟩] ∧
    ¬ ((1 / 2 : ℚ) ≤ 0) ∧
    fixedPerBranchPoints 1 true 0 (1 / 2) 1 = [⟨0, 1 / 4⟩] ∧
    ¬ ((1 / 2 : ℚ) ≤ 1 / 4) := by
  refine ⟨?_, by norm_num, ?_, by norm_num⟩
  · simp [fixedPerBranchPoints, List.range_succ]
  · simp [fixedPerBranchPoints, List.range_succ]
    norm_num

end Arbor
